import Mathlib

/-!
# Firmware table codec of wdmch-tools

A shallow embedding of the Go package `pkg/fwtable` (header, partition and
firmware records, the byte-sum checksum, decode / encode / validate / export)
and of the entry-management commands of `cmd/fwtablectl`.

Conventions of the embedding:

* a Go `[]byte`, a fixed byte array and a byte-valued `string` (signature,
  mount point) are a `List Nat`, one element per byte;
* `uint8`, `uint32`, `uint64` values are `Nat`, reduced modulo `2^8`, `2^32`,
  `2^64` wherever the Go code converts or overflows;
* a Go `int` is an `Int`;
* type names, which the code only compares with its enumeration tables or
  builds with `Sprintf`, are `String`;
* a method with a pointer receiver is a function from the old record to the
  new one, inside `Except Err` when the Go method can return an error.
-/

namespace Fwtable

/-! ## Errors -/

/-- The segment of the exported stream a write belongs to. -/
inductive Segment where
  | header
  | part (i : Nat)
  | firmware (i : Nat)
  | padding
  deriving DecidableEq, Repr

/-- The errors of the package, one constructor per `fmt.Errorf` site, plus the
two errors of `binary.Read`, a device fault of a reader and a runtime panic. -/
inductive Err where
  | eof
  | unexpectedEOF
  | ioFault
  | invalidType (t : String)
  | invalidFsType (t : String)
  | mountPointTooLong (n : Nat)
  | couldNotRead (e : Err)
  | read (e : Err)
  | partsNotAligned (n : Nat)
  | fwsNotAligned (n : Nat)
  | readPart (i : Nat) (e : Err)
  | partDecode (i : Nat) (e : Err)
  | readFw (i : Nat) (e : Err)
  | fwDecode (i : Nat) (e : Err)
  | part (i : Nat) (e : Err)
  | firmware (i : Nat) (e : Err)
  | partialWrite (seg : Segment) (n len : Nat)
  | writeError (seg : Segment)
  | readingAt (size : Nat) (e : Err)
  | invalidPartIndex (idx : Int)
  | alreadyExists (t : String)
  | notFound (t : String)
  | panic
  deriving DecidableEq, Repr

/-! ## Machine integers and `encoding/binary` (little endian) -/

/-- Conversion `uint8(x)` of a Go `int`. -/
def toUint8 (x : Int) : Nat := (x % 256).toNat

/-- Conversion `uint32(x)` of a Go `int`. -/
def toUint32 (x : Int) : Nat := (x % 4294967296).toNat

/-- The `n` little-endian bytes of `x`, as `binary.Write` emits an unsigned
integer of `n` bytes. -/
def leBytes : Nat → Nat → List Nat
  | 0, _ => []
  | n + 1, x => x % 256 :: leBytes n (x / 256)

/-- The unsigned integer `binary.Read` builds from little-endian bytes. -/
def leValue : List Nat → Nat
  | [] => 0
  | b :: bs => b + 256 * leValue bs

/-- The field of `w` bytes at offset `o` of a buffer. -/
def field (c : List Nat) (o w : Nat) : List Nat := (c.drop o).take w

/-- The error of `binary.Read` over `bytes.NewReader(content)` for a record of
`size` bytes: `io.EOF` on an empty buffer, `io.ErrUnexpectedEOF` on a short one. -/
def binaryReadErr (content : List Nat) (size : Nat) : Option Err :=
  if content.length = 0 then some .eof
  else if content.length < size then some .unexpectedEOF
  else none

/-- The builtin `copy(dst, src)`: the first `min (len dst) (len src)` bytes of
`dst` are replaced, its length is kept. -/
def goCopy {α : Type} (dst src : List α) : List α :=
  src.take dst.length ++ dst.drop src.length

/-- The first index `i` (counted from `start`) with `t == names[i]`: the
`for i, v := range names` loops that `break` on the first match. -/
def typeCode (t : String) : List String → Nat → Option Nat
  | [], _ => none
  | v :: vs, i => if t = v then some i else typeCode t vs (i + 1)

/-- The placeholder `fmt.Sprintf("Invalid (%d)", n)`. -/
def invalidName (n : Nat) : String := "Invalid (" ++ toString n ++ ")"

/-! ## Firmware entries (`fwentry.go`) -/

def FwTypes : List String :=
  ["Reserved", "Bootcode", "Kernel", "RescueDeviceTree", "KernelDeviceTree",
   "RescueRootFS", "KernelRootFS", "Audio", "AudioFile", "VideoFile", "Ext4",
   "Ubifs", "Squash", "Ext3", "Odd", "YAFFS2", "ISO", "Swap", "NTFS", "JFFS2",
   "ImageFile", "ImageFile1", "ImageFile2", "AudioFile1", "AudioFile2",
   "VideoFile1", "VideoFile2", "Video", "Video2", "eCPU", "Tee", "GoldKernel",
   "GoldRescueDeviceTree", "GoldRescueRootfs", "GoldAudio", "GoldTee", "Config",
   "uBoot", "BL31", "Hypervisor", "GoldBL31", "RSAKeyFW", "RSAKeyTee",
   "RescueKernel", "RescueAudio", "RescueConfig", "Unknown"]

def fwEntrySize : Nat := 32

/-- The private `table` struct of `FwEntry`: the on-disk record. -/
structure FwEntryTable where
  /-- Go field `Type` (a reserved word here). -/
  Typ : Nat
  Options : Nat
  Version : Nat
  TargetAddress : Nat
  Offset : Nat
  Length : Nat
  Paddings : Nat
  Checksum : Nat
  Reserved : List Nat
  deriving DecidableEq, Repr

/-- One firmware in the table. -/
structure FwEntry where
  /-- Go field `Type` (a reserved word here). -/
  Typ : String
  Lzma : Bool
  ReadOnly : Bool
  Version : Int
  Length : Int
  Paddings : Int
  DiskOffset : Int
  TargetAddress : Nat
  Checksum : Nat
  content : List Nat
  table : FwEntryTable
  deriving DecidableEq, Repr

/-- The zero value of the `table` struct. -/
def FwEntryTable.zero : FwEntryTable :=
  { Typ := 0, Options := 0, Version := 0, TargetAddress := 0, Offset := 0,
    Length := 0, Paddings := 0, Checksum := 0, Reserved := List.replicate 6 0 }

/-- The composite literal `&FwEntry{content: buffer}`. -/
def FwEntry.ofContent (buffer : List Nat) : FwEntry :=
  { Typ := "", Lzma := false, ReadOnly := false, Version := 0, Length := 0,
    Paddings := 0, DiskOffset := 0, TargetAddress := 0, Checksum := 0,
    content := buffer, table := FwEntryTable.zero }

/-- What `binary.Write(buffer, binary.LittleEndian, &fw.table)` emits. -/
def FwEntryTable.bytes (t : FwEntryTable) : List Nat :=
  leBytes 1 t.Typ ++ leBytes 1 t.Options ++ leBytes 4 t.Version
    ++ leBytes 4 t.TargetAddress ++ leBytes 4 t.Offset ++ leBytes 4 t.Length
    ++ leBytes 4 t.Paddings ++ leBytes 4 t.Checksum ++ t.Reserved

/-- What `binary.Read` stores in `fw.table` from a buffer of at least 32 bytes. -/
def FwEntryTable.ofBytes (c : List Nat) : FwEntryTable :=
  { Typ := leValue (field c 0 1), Options := leValue (field c 1 1),
    Version := leValue (field c 2 4), TargetAddress := leValue (field c 6 4),
    Offset := leValue (field c 10 4), Length := leValue (field c 14 4),
    Paddings := leValue (field c 18 4), Checksum := leValue (field c 22 4),
    Reserved := field c 26 6 }

/-- Method `(fw *FwEntry) WriteContent`. -/
def FwEntry.WriteContent (fw : FwEntry) : Except Err FwEntry :=
  match typeCode fw.Typ FwTypes 0 with
  | none => .error (.invalidType fw.Typ)
  | some i =>
    let options := if fw.Lzma then 0 ||| 64 else 0
    let options := if fw.ReadOnly then options ||| 128 else options
    let table : FwEntryTable :=
      { Typ := i % 256, Options := options, Version := toUint32 fw.Version,
        TargetAddress := fw.TargetAddress, Offset := toUint32 fw.DiskOffset,
        Length := toUint32 fw.Length, Paddings := toUint32 fw.Paddings,
        Checksum := fw.Checksum, Reserved := List.replicate 6 0 }
    .ok { fw with table := table, content := table.bytes }

/-- Method `(fw *FwEntry) ReadContent`. -/
def FwEntry.ReadContent (fw : FwEntry) : Except Err FwEntry :=
  match binaryReadErr fw.content fwEntrySize with
  | some e => .error e
  | none =>
    let table := FwEntryTable.ofBytes fw.content
    .ok { fw with
      table := table
      Typ := if table.Typ ≥ FwTypes.length then invalidName table.Typ
              else FwTypes.getD table.Typ ""
      Lzma := (table.Options &&& 64) == 64
      ReadOnly := (table.Options &&& 128) == 128
      Version := (table.Version : Int)
      Length := (table.Length : Int)
      Paddings := (table.Paddings : Int)
      DiskOffset := (table.Offset : Int)
      TargetAddress := table.TargetAddress
      Checksum := table.Checksum }

/-! ### `ReadFile`: the payload scan -/

/-- One call of `ReadByte` on an `io.ByteReader`: a payload byte, or an error
other than `io.EOF` together with the (unspecified) byte value returned with it. -/
inductive ReadEvent where
  | byte (b : Nat)
  | fault (b : Nat)
  deriving DecidableEq, Repr

/-- The loop of `ReadFile` over a reader given by the results of its successive
`ReadByte` calls, `io.EOF` from the end of the list on. The state is `cs`,
`size` and the OUTER `currentError`. The body declares a new `currentError`
with `:=`, so the outer one is never assigned: the loop leaves only through the
`break` on `io.EOF` and every other call, failed or not, adds `b` and counts.
A reader that never returns `io.EOF` keeps the Go loop running for ever; such a
reader is no finite list and has no result here. -/
def readFileLoop : List ReadEvent → Nat → Int → Option Err → Nat × Int × Option Err
  | [], cs, size, currentError => (cs, size, currentError)
  | .byte b :: r, cs, size, currentError =>
      readFileLoop r ((cs + b) % 4294967296) (size + 1) currentError
  | .fault b :: r, cs, size, currentError =>
      readFileLoop r ((cs + b) % 4294967296) (size + 1) currentError

/-- Method `(fw *FwEntry) ReadFile`. -/
def FwEntry.ReadFile (fw : FwEntry) (r : List ReadEvent) : Except Err FwEntry :=
  match readFileLoop r 0 0 none with
  | (_, size, some e) => .error (.readingAt size.toNat e)
  | (cs, size, none) =>
    .ok { fw with Checksum := cs, Length := size, Paddings := size + 512 - size % 512 }

/-! ## Partition entries (`fwpart.go`) -/

def partTypes : List String := ["reserved", "firmware", "filesystem"]

def partFileSystemTypes : List String :=
  ["jffs2", "yaffs2", "squash", "rawfile", "ext4", "ubifs", "none", "unknown"]

def partEntrySize : Nat := 48

/-- The private `table` struct of `PartEntry`: the on-disk record. -/
structure PartEntryTable where
  /-- Go field `Type` (a reserved word here). -/
  Typ : Nat
  Options : Nat
  Lenght : Nat
  FwCount : Nat
  FwType : Nat
  EmmcPartID : Nat
  Reserved : List Nat
  MountPoint : List Nat
  deriving DecidableEq, Repr

/-- One partition in the table. -/
structure PartEntry where
  /-- Go field `Type` (a reserved word here). -/
  Typ : String
  FwType : String
  ReadOnly : Bool
  Lenght : Nat
  FwCount : Int
  EmmcPartID : Int
  MountPoint : List Nat
  content : List Nat
  table : PartEntryTable
  deriving DecidableEq, Repr

/-- The zero value of the `table` struct. -/
def PartEntryTable.zero : PartEntryTable :=
  { Typ := 0, Options := 0, Lenght := 0, FwCount := 0, FwType := 0, EmmcPartID := 0,
    Reserved := List.replicate 3 0, MountPoint := List.replicate 32 0 }

/-- The composite literal `&PartEntry{content: buffer}`. -/
def PartEntry.ofContent (buffer : List Nat) : PartEntry :=
  { Typ := "", FwType := "", ReadOnly := false, Lenght := 0, FwCount := 0,
    EmmcPartID := 0, MountPoint := [], content := buffer, table := PartEntryTable.zero }

/-- What `binary.Write(buffer, binary.LittleEndian, &part.table)` emits. -/
def PartEntryTable.bytes (t : PartEntryTable) : List Nat :=
  leBytes 1 t.Typ ++ leBytes 1 t.Options ++ leBytes 8 t.Lenght ++ leBytes 1 t.FwCount
    ++ leBytes 1 t.FwType ++ leBytes 1 t.EmmcPartID ++ t.Reserved ++ t.MountPoint

/-- What `binary.Read` stores in `part.table` from a buffer of at least 48 bytes. -/
def PartEntryTable.ofBytes (c : List Nat) : PartEntryTable :=
  { Typ := leValue (field c 0 1), Options := leValue (field c 1 1),
    Lenght := leValue (field c 2 8), FwCount := leValue (field c 10 1),
    FwType := leValue (field c 11 1), EmmcPartID := leValue (field c 12 1),
    Reserved := field c 13 3, MountPoint := field c 16 32 }

/-- Method `(part *PartEntry) WriteContent`. The mount point is refused when
`len(mp) > 32`; the two loops that follow leave the bytes of `mp` and then
zeros in the 32-byte array; the record is copied into `part.content`. -/
def PartEntry.WriteContent (part : PartEntry) : Except Err PartEntry :=
  match typeCode part.Typ partTypes 0 with
  | none => .error (.invalidType part.Typ)
  | some i =>
    let options := if part.ReadOnly then 128 else 0
    match typeCode part.FwType partFileSystemTypes 0 with
    | none => .error (.invalidFsType part.Typ)
    | some j =>
      let mp := part.MountPoint
      if mp.length > 32 then .error (.mountPointTooLong mp.length)
      else
        let table : PartEntryTable :=
          { Typ := i % 256, Options := options, Lenght := part.Lenght,
            FwCount := toUint8 part.FwCount, FwType := j % 256,
            EmmcPartID := toUint8 part.EmmcPartID, Reserved := List.replicate 3 0,
            MountPoint := mp ++ List.replicate (32 - mp.length) 0 }
        .ok { part with table := table, content := goCopy part.content table.bytes }

/-- Method `(part *PartEntry) ReadContent`. The statement
`part.EmmcPartID = int(part.EmmcPartID)` assigns the field to itself, so the
field keeps its old value; the mount point is the whole 32-byte array. -/
def PartEntry.ReadContent (part : PartEntry) : Except Err PartEntry :=
  match binaryReadErr part.content partEntrySize with
  | some e => .error e
  | none =>
    let table := PartEntryTable.ofBytes part.content
    .ok { part with
      table := table
      Typ := if table.Typ ≥ partTypes.length then invalidName table.Typ
             else partTypes.getD table.Typ ""
      FwType := if table.FwType ≥ partFileSystemTypes.length then invalidName table.FwType
                else partFileSystemTypes.getD table.FwType ""
      ReadOnly := (table.Options &&& 128) == 128
      Lenght := table.Lenght
      FwCount := (table.FwCount : Int)
      EmmcPartID := part.EmmcPartID
      MountPoint := table.MountPoint }

/-! ## The table (`fwtable.go`) -/

def fwTableSize : Nat := 32

/-- The private `table` struct of `FwTable`: the on-disk header. -/
structure FwTableHeader where
  Signature : List Nat
  Checksum : Nat
  Version : Nat
  Reserved : List Nat
  Paddings : Nat
  PartListLen : Nat
  FwListLen : Nat
  deriving DecidableEq, Repr

/-- The main table. -/
structure FwTable where
  Signature : List Nat
  Checksum : Nat
  Version : Int
  Size : Int
  Extra : Int
  Parts : List PartEntry
  Fws : List FwEntry
  content : List Nat
  table : FwTableHeader
  deriving DecidableEq, Repr

/-- The zero value of the header struct. -/
def FwTableHeader.zero : FwTableHeader :=
  { Signature := List.replicate 8 0, Checksum := 0, Version := 0,
    Reserved := List.replicate 7 0, Paddings := 0, PartListLen := 0, FwListLen := 0 }

/-- The composite literal `&FwTable{content: buffer}`. -/
def FwTable.ofContent (buffer : List Nat) : FwTable :=
  { Signature := [], Checksum := 0, Version := 0, Size := 0, Extra := 0, Parts := [],
    Fws := [], content := buffer, table := FwTableHeader.zero }

/-- What `binary.Write(buffer, binary.LittleEndian, &fw.table)` emits. -/
def FwTableHeader.bytes (t : FwTableHeader) : List Nat :=
  t.Signature ++ leBytes 4 t.Checksum ++ leBytes 1 t.Version ++ t.Reserved
    ++ leBytes 4 t.Paddings ++ leBytes 4 t.PartListLen ++ leBytes 4 t.FwListLen

/-- What `binary.Read` stores in `fw.table` from a buffer of at least 32 bytes. -/
def FwTableHeader.ofBytes (c : List Nat) : FwTableHeader :=
  { Signature := field c 0 8, Checksum := leValue (field c 8 4),
    Version := leValue (field c 12 1), Reserved := field c 13 7,
    Paddings := leValue (field c 20 4), PartListLen := leValue (field c 24 4),
    FwListLen := leValue (field c 28 4) }

/-- The bytes of the string "VERONA__". -/
def signatureVERONA : List Nat := [86, 69, 82, 79, 78, 65, 95, 95]

/-- Function `calculateChecksum`: `start += uint32(b)` for every byte. -/
def calculateChecksum (inp : List Nat) (start : Nat) : Nat :=
  inp.foldl (fun s b => (s + b) % 4294967296) start

/-- Method `(fw *FwTable) checksum`. The header buffer always has 32 bytes
(`New` is the only place that makes one), so `fw.content[12:]` is `drop 12`. -/
def FwTable.checksum (fw : FwTable) : Nat :=
  let cs := calculateChecksum (fw.content.drop 12) 0
  let cs := fw.Parts.foldl (fun cs p => calculateChecksum p.content cs) cs
  fw.Fws.foldl (fun cs f => calculateChecksum f.content cs) cs

/-- The three kinds of error `Validate` appends. -/
inductive Violation where
  | signature (found : List Nat)
  | reserved
  | checksum (computed stored : Nat)
  deriving DecidableEq, Repr

/-- Method `(fw *FwTable) Validate`; the `nil` result is the empty list. -/
def FwTable.Validate (fw : FwTable) : List Violation :=
  let ret : List Violation := []
  let ret := if fw.Signature ≠ signatureVERONA then ret ++ [.signature fw.Signature] else ret
  let ret := fw.table.Reserved.foldl (fun ret v => if v ≠ 0 then ret ++ [.reserved] else ret) ret
  let cs := fw.checksum
  if fw.table.Checksum ≠ cs then ret ++ [.checksum cs fw.table.Checksum] else ret

/-- Method `(fw *FwTable) ReadContent`. -/
def FwTable.ReadContent (fw : FwTable) : Except Err FwTable :=
  match binaryReadErr fw.content fwTableSize with
  | some e => .error (.couldNotRead e)
  | none =>
    let table := FwTableHeader.ofBytes fw.content
    let size : Int := (table.Paddings : Int)
    .ok { fw with
      table := table
      Signature := table.Signature
      Checksum := table.Checksum
      Version := (table.Version : Int)
      Size := size
      Extra := size - 32 - (table.PartListLen : Int) - (table.FwListLen : Int) }

/-- The loop `for i, p := range fw.Parts` of `WriteContent`, from index `i`. -/
def writeParts : List PartEntry → Nat → Except Err (List PartEntry)
  | [], _ => .ok []
  | p :: ps, i =>
    match p.WriteContent with
    | .error e => .error (.part (i + 1) e)
    | .ok p1 =>
      match writeParts ps (i + 1) with
      | .error e => .error e
      | .ok ps1 => .ok (p1 :: ps1)

/-- The loop `for i, f := range fw.Fws` of `WriteContent`, from index `i`. -/
def writeFws : List FwEntry → Nat → Except Err (List FwEntry)
  | [], _ => .ok []
  | f :: fs, i =>
    match f.WriteContent with
    | .error e => .error (.firmware (i + 1) e)
    | .ok f1 =>
      match writeFws fs (i + 1) with
      | .error e => .error e
      | .ok fs1 => .ok (f1 :: fs1)

/-- Method `(fw *FwTable) WriteContent`. The slice expression
`[]byte(fw.Signature)[:8]` on a shorter signature is a panic here. -/
def FwTable.WriteContent (fw : FwTable) : Except Err FwTable :=
  if fw.Signature.length < 8 then .error .panic
  else
    let partListLen := (partEntrySize * fw.Parts.length) % 4294967296
    let fwListLen := (fwEntrySize * fw.Fws.length) % 4294967296
    let totalSize := (fwTableSize + partListLen + fwListLen) % 4294967296
    let paddings := (totalSize + 512 - totalSize % 512) % 4294967296
    let table0 : FwTableHeader :=
      { Signature := fw.Signature.take 8, Checksum := 0, Version := toUint8 fw.Version,
        Reserved := List.replicate 7 0, Paddings := paddings,
        PartListLen := partListLen, FwListLen := fwListLen }
    let content0 := goCopy fw.content table0.bytes
    match writeParts fw.Parts 0 with
    | .error e => .error e
    | .ok parts =>
      match writeFws fw.Fws 0 with
      | .error e => .error e
      | .ok fws =>
        let fw1 : FwTable :=
          { fw with
            table := table0, Size := (paddings : Int),
            Extra := (((paddings + 4294967296 - totalSize) % 4294967296 : Nat) : Int),
            content := content0, Parts := parts, Fws := fws }
        let table1 := { table0 with Checksum := fw1.checksum }
        .ok { fw1 with table := table1, content := goCopy content0 table1.bytes }

/-- An `io.Writer`: `write s bs` gives the count `n`, the error and the new
state of the writer for the call `w.Write(bs)` in state `s`. -/
structure Writer (σ : Type) where
  write : σ → List Nat → Nat × Option Err × σ

/-- A writer that accepts every write in full and keeps the bytes. -/
def bufferWriter : Writer (List Nat) :=
  { write := fun s bs => (bs.length, none, s ++ bs) }

/-- One `w.Write(bs)` of `Export` with its two checks. -/
def exportWrite {σ : Type} (w : Writer σ) (s : σ) (bs : List Nat) (seg : Segment) :
    Except Err σ :=
  match w.write s bs with
  | (n, err, s1) =>
    if n ≠ bs.length then .error (.partialWrite seg n bs.length)
    else match err with
      | some _ => .error (.writeError seg)
      | none => .ok s1

/-- The loop over `fw.Parts` of `Export`: state of the writer and `written`. -/
def exportParts {σ : Type} (w : Writer σ) : List PartEntry → Nat → σ → Nat → Except Err (σ × Nat)
  | [], _, s, written => .ok (s, written)
  | p :: ps, i, s, written =>
    match exportWrite w s p.content (.part i) with
    | .error e => .error e
    | .ok s1 => exportParts w ps (i + 1) s1 (written + p.content.length)

/-- The loop over `fw.Fws` of `Export`: state of the writer and `written`. -/
def exportFws {σ : Type} (w : Writer σ) : List FwEntry → Nat → σ → Nat → Except Err (σ × Nat)
  | [], _, s, written => .ok (s, written)
  | f :: fs, i, s, written =>
    match exportWrite w s f.content (.firmware i) with
    | .error e => .error e
    | .ok s1 => exportFws w fs (i + 1) s1 (written + f.content.length)

/-- Method `(fw *FwTable) Export`; `make([]byte, n)` with `n < 0` panics. -/
def FwTable.Export {σ : Type} (fw : FwTable) (w : Writer σ) (s : σ) : Except Err σ :=
  match exportWrite w s fw.content .header with
  | .error e => .error e
  | .ok s1 =>
    match exportParts w fw.Parts 0 s1 fw.content.length with
    | .error e => .error e
    | .ok (s2, written2) =>
      match exportFws w fw.Fws 0 s2 written2 with
      | .error e => .error e
      | .ok (s3, written) =>
        if fw.Size - (written : Int) < 0 then .error .panic
        else exportWrite w s3 (List.replicate (fw.Size - (written : Int)).toNat 0) .padding

/-- The call `r.Read(buffer)` on a file or an in-memory reader that still
holds the bytes `r`, with a fresh zero-filled `buffer` of `n > 0` bytes: the
buffer after the call and the bytes left, or `io.EOF` when none is left. The
count of bytes read is dropped, as `New` drops it. -/
def readInto (r : List Nat) (n : Nat) : Except Err (List Nat × List Nat) :=
  if r.length = 0 then .error .eof
  else .ok (r.take n ++ List.replicate (n - r.length) 0, r.drop n)

/-- The loop `for i := range fw.Parts` of `New`: `k` entries left, index `i`. -/
def readParts : Nat → Nat → List Nat → Except Err (List PartEntry × List Nat)
  | 0, _, r => .ok ([], r)
  | k + 1, i, r =>
    match readInto r partEntrySize with
    | .error e => .error (.readPart i e)
    | .ok (buffer, r1) =>
      match (PartEntry.ofContent buffer).ReadContent with
      | .error e => .error (.partDecode i e)
      | .ok part =>
        match readParts k (i + 1) r1 with
        | .error e => .error e
        | .ok (ps, r2) => .ok (part :: ps, r2)

/-- The loop `for i := range fw.Fws` of `New`: `k` entries left, index `i`. -/
def readFws : Nat → Nat → List Nat → Except Err (List FwEntry × List Nat)
  | 0, _, r => .ok ([], r)
  | k + 1, i, r =>
    match readInto r fwEntrySize with
    | .error e => .error (.readFw i e)
    | .ok (buffer, r1) =>
      match (FwEntry.ofContent buffer).ReadContent with
      | .error e => .error (.fwDecode i e)
      | .ok f =>
        match readFws k (i + 1) r1 with
        | .error e => .error e
        | .ok (fs, r2) => .ok (f :: fs, r2)

/-- Function `New`, on a reader that holds the bytes `r`. -/
def New (r : List Nat) : Except Err FwTable :=
  match readInto r fwTableSize with
  | .error e => .error (.read e)
  | .ok (buffer, r1) =>
    match (FwTable.ofContent buffer).ReadContent with
    | .error e => .error e
    | .ok fw =>
      if fw.table.PartListLen % partEntrySize ≠ 0 then
        .error (.partsNotAligned fw.table.PartListLen)
      else if fw.table.FwListLen % fwEntrySize ≠ 0 then
        .error (.fwsNotAligned fw.table.FwListLen)
      else
        match readParts (fw.table.PartListLen / partEntrySize) 0 r1 with
        | .error e => .error e
        | .ok (parts, r2) =>
          match readFws (fw.table.FwListLen / fwEntrySize) 0 r2 with
          | .error e => .error e
          | .ok (fws, _) => .ok { fw with Parts := parts, Fws := fws }

/-! ## Entry management (`cmd/fwtablectl`) -/

/-- The three statements `copy(xs[idx:], xs[idx+1:])`, `xs[len(xs)-1] = nil`,
`xs = xs[:len(xs)-1]` shared by `partRemove` and `firmwareRemove`. The slice
expression `xs[idx+1:]` panics when `idx + 1 > len(xs)`. -/
def shiftRemove {α : Type} (xs : List α) (idx : Nat) : Except Err (List α) :=
  if idx + 1 > xs.length then .error .panic
  else .ok ((xs.take idx ++ goCopy (xs.drop idx) (xs.drop (idx + 1))).dropLast)

/-- Function `partRemove` between `readFwTable` and `writeFwTable`: `idx` is
the parsed command-line index, `os.Exit(1)` is an error. -/
def partRemove (fw : FwTable) (idx : Int) : Except Err FwTable :=
  if idx < 1 ∨ idx > (fw.Parts.length : Int) then .error (.invalidPartIndex idx)
  else if fw.Parts.length = 1 then .ok { fw with Parts := [] }
  else
    match shiftRemove fw.Parts idx.toNat with
    | .error e => .error e
    | .ok parts => .ok { fw with Parts := parts }

/-- The loop of `FindFwByType`: the first entry with `f.Type == fwType`. -/
def findFw (fwType : String) : List FwEntry → Option FwEntry
  | [] => none
  | f :: fs => if f.Typ = fwType then some f else findFw fwType fs

/-- Method `(fw *FwTable) FindFwByType`; the `nil` result is `none`. -/
def FwTable.FindFwByType (fw : FwTable) (fwType : String) : Option FwEntry :=
  findFw fwType fw.Fws

/-- Function `firmwareNew` between `readFwTable` and `writeFwTable`, with the
payload file already opened: `sector` and `loadAddr` are the parsed arguments
(`ParseInt` on 32 bits, `ParseUint` on 32 bits), `payload` is the reader over
the file, `os.Exit(1)` is an error. -/
def firmwareNew (fw : FwTable) (fwType : String) (sector : Int) (loadAddr : Nat)
    (payload : List ReadEvent) : Except Err FwTable :=
  match fw.FindFwByType fwType with
  | some _ => .error (.alreadyExists fwType)
  | none =>
    let fwe : FwEntry :=
      { FwEntry.ofContent [] with
        Typ := fwType, Lzma := false, ReadOnly := true, Version := 0,
        DiskOffset := sector * 512, TargetAddress := loadAddr % 4294967296 }
    match fwe.ReadFile payload with
    | .error e => .error e
    | .ok fwe1 => .ok { fw with Fws := fw.Fws ++ [fwe1] }

/-- The loop of `firmwareRemove`: the first index `i` (counted from the start
index) with `f.Type == fwType`, or `none` for `idx == -1`. -/
def findFwIndex (fwType : String) : List FwEntry → Nat → Option Nat
  | [], _ => none
  | f :: fs, i => if f.Typ = fwType then some i else findFwIndex fwType fs (i + 1)

/-- Function `firmwareRemove` between `readFwTable` and `writeFwTable`;
`os.Exit(1)` is an error. -/
def firmwareRemove (fw : FwTable) (fwType : String) : Except Err FwTable :=
  match findFwIndex fwType fw.Fws 0 with
  | none => .error (.notFound fwType)
  | some idx =>
    if fw.Fws.length = 1 then .ok { fw with Fws := [] }
    else
      match shiftRemove fw.Fws idx with
      | .error e => .error e
      | .ok fws => .ok { fw with Fws := fws }

/-! ## Auxiliary definitions for the statements -/

/-- The header `WriteContent` serialises: every field but the checksum. -/
def headerOf (fw : FwTable) : FwTableHeader :=
  let partListLen := (partEntrySize * fw.Parts.length) % 4294967296
  let fwListLen := (fwEntrySize * fw.Fws.length) % 4294967296
  let totalSize := (fwTableSize + partListLen + fwListLen) % 4294967296
  { Signature := fw.Signature.take 8, Checksum := 0, Version := toUint8 fw.Version,
    Reserved := List.replicate 7 0,
    Paddings := (totalSize + 512 - totalSize % 512) % 4294967296,
    PartListLen := partListLen, FwListLen := fwListLen }

/-- The bytes the checksum of a table covers: the header buffer from offset 12
on, then the buffers of the partition entries, then those of the firmware entries. -/
def coveredBytes (fw : FwTable) : List Nat :=
  fw.content.drop 12 ++ (fw.Parts.map (fun p => p.content)).flatten
    ++ (fw.Fws.map (fun f => f.content)).flatten

/-- A partition entry the round trip is stated for: known type and filesystem
names, a mount point of at most 31 bytes, the 48-byte buffer `New` gives every
entry, and `FwCount` and `Lenght` within their on-disk widths. -/
def PartEntry.WellFormed (p : PartEntry) : Prop :=
  p.Typ ∈ partTypes ∧ p.FwType ∈ partFileSystemTypes ∧ p.MountPoint.length ≤ 31
    ∧ p.content.length = 48 ∧ 0 ≤ p.FwCount ∧ p.FwCount < 256
    ∧ p.Lenght < 18446744073709551616

/-- A firmware entry the round trip is stated for: a known type name and
numeric fields within 32 bits. -/
def FwEntry.WellFormed (f : FwEntry) : Prop :=
  f.Typ ∈ FwTypes ∧ (0 ≤ f.Version ∧ f.Version < 4294967296)
    ∧ (0 ≤ f.Length ∧ f.Length < 4294967296)
    ∧ (0 ≤ f.Paddings ∧ f.Paddings < 4294967296)
    ∧ (0 ≤ f.DiskOffset ∧ f.DiskOffset < 4294967296)
    ∧ f.TargetAddress < 4294967296 ∧ f.Checksum < 4294967296

/-- The decoded partition entry `d` gives back the fields of `e`, the mount
point as the whole 32-byte field (the text followed by zero bytes). -/
def PartEntry.agrees (e d : PartEntry) : Prop :=
  d.Typ = e.Typ ∧ d.ReadOnly = e.ReadOnly ∧ d.Lenght = e.Lenght ∧ d.FwCount = e.FwCount
    ∧ d.FwType = e.FwType
    ∧ d.MountPoint = e.MountPoint ++ List.replicate (32 - e.MountPoint.length) 0

/-- The decoded firmware entry `d` gives back every field of `e`. -/
def FwEntry.agrees (e d : FwEntry) : Prop :=
  d.Typ = e.Typ ∧ d.Lzma = e.Lzma ∧ d.ReadOnly = e.ReadOnly ∧ d.Version = e.Version
    ∧ d.TargetAddress = e.TargetAddress ∧ d.DiskOffset = e.DiskOffset
    ∧ d.Length = e.Length ∧ d.Paddings = e.Paddings ∧ d.Checksum = e.Checksum

/-- The four bytes of a 32-bit value in little-endian order, least significant
byte first, as the layout of the records states them. -/
def le32 (x : Nat) : List Nat :=
  [x % 256, x / 256 % 256, x / 65536 % 256, x / 16777216 % 256]

/-- The buffer that the `j`-th of successive reads of `n` bytes gets from a
reader holding `r`: the bytes from offset `n * j` on, zero-filled when fewer
than `n` are left. -/
def blockAt (r : List Nat) (n j : Nat) : List Nat :=
  (r.drop (n * j)).take n ++ List.replicate (n - (r.drop (n * j)).length) 0

/-! ## Concrete tables and entries -/

/-- A partition entry as `New` leaves it (a 48-byte buffer), with fields set. -/
def exPart : PartEntry :=
  { PartEntry.ofContent (List.replicate 48 0) with
    Typ := "firmware", FwType := "ext4", ReadOnly := true, Lenght := 4096, FwCount := 2,
    EmmcPartID := 1, MountPoint := [47] }

/-- A firmware entry as `firmwareNew` builds it, after `ReadFile`. -/
def exFw : FwEntry :=
  { FwEntry.ofContent [] with
    Typ := "Kernel", ReadOnly := true, Version := 0, Length := 512, Paddings := 1024,
    DiskOffset := 512, TargetAddress := 35651584, Checksum := 77 }

/-- A table with one partition and one firmware: 32 + 48 + 32 = 112 bytes. -/
def exTable : FwTable :=
  { FwTable.ofContent (List.replicate 32 0) with
    Signature := signatureVERONA, Version := 1, Parts := [exPart], Fws := [exFw] }

/-- The table `exTable` after `WriteContent`. -/
def exTableWritten : FwTable :=
  match exTable.WriteContent with
  | .ok fw => fw
  | .error _ => exTable

/-- The partitions A, B, C: three entries told apart by their length. -/
def partA : PartEntry := { exPart with Lenght := 1 }
def partB : PartEntry := { exPart with Lenght := 2 }
def partC : PartEntry := { exPart with Lenght := 3 }

/-- A table whose partitions are A, B, C. -/
def tableABC : FwTable := { exTable with Parts := [partA, partB, partC] }

/-- A partition entry whose mount point is 32 bytes long. -/
def partMount32 : PartEntry := { exPart with MountPoint := List.replicate 32 97 }

/-- The entry `exPart` after `WriteContent`. -/
def exPartWritten : PartEntry :=
  match exPart.WriteContent with
  | .ok p => p
  | .error _ => exPart

/-- The 512 bytes `Export` writes for `exTable` after `WriteContent`. -/
def exStream : List Nat :=
  match exTableWritten.Export bufferWriter [] with
  | .ok s => s
  | .error _ => []

/-- The table `New` decodes from `exStream`. -/
def exDecoded : FwTable :=
  match New exStream with
  | .ok fw => fw
  | .error _ => exTable

/-- A second firmware entry, of another type. -/
def exFwBoot : FwEntry := { exFw with Typ := "uBoot", DiskOffset := 4096 }

/-- The decoded table with one firmware entry added. -/
def exChanged : FwTable := { exDecoded with Fws := exDecoded.Fws ++ [exFwBoot] }

/-- The table `exChanged` after `WriteContent`. -/
def exChangedWritten : FwTable :=
  match exChanged.WriteContent with
  | .ok fw => fw
  | .error _ => exChanged

/-- A firmware entry with a type name that is not in `FwTypes`. -/
def exFwBogus : FwEntry := { exFw with Typ := "Bogus" }

/-- A table whose second firmware entry cannot be encoded. -/
def tableBogus : FwTable := { exTable with Fws := [exFw, exFwBogus] }

/-- A table with the firmware entries Kernel, uBoot, Kernel (a duplicate). -/
def tableKUK : FwTable := { exTable with Fws := [exFw, exFwBoot, { exFw with Version := 9 }] }

/-- A stream of 10 bytes: the signature and two more bytes. -/
def shortStream : List Nat := [86, 69, 82, 79, 78, 65, 95, 95, 1, 2]

/-- The first 90 bytes of `exStream`: the header (which announces 48 bytes of
partition entries and 32 bytes of firmware entries), the partition entry and
10 of the 32 bytes of the firmware entry. -/
def truncatedStream : List Nat := exStream.take 90

/-- A 32-byte firmware block whose type code is 200. -/
def fwBlock200 : List Nat := 200 :: List.replicate 31 0

/-- A 48-byte partition block whose type code is 9. -/
def partBlock9 : List Nat := 9 :: List.replicate 47 0

/-- A header that announces 4294967280 bytes of partition entries (89478485
entries) and 32 bytes of firmware entries (one entry). -/
def bigHeader : List Nat :=
  [86, 69, 82, 79, 78, 65, 95, 95, 0, 0, 0, 0, 0, 0, 0, 0, 0, 0, 0, 0, 0, 0, 0, 0,
   240, 255, 255, 255, 32, 0, 0, 0]

/-- A stream of 32 + 4294967280 + 32 + 1 bytes: `bigHeader`, then zeros. -/
def bigStream : List Nat := bigHeader ++ List.replicate 4294967313 0

/-- The partition entry decoded from 48 zero bytes. -/
def zeroPart : PartEntry :=
  match (PartEntry.ofContent (List.replicate 48 0)).ReadContent with
  | .ok p => p
  | .error _ => PartEntry.ofContent []

/-- The firmware entry decoded from 32 zero bytes. -/
def zeroFw : FwEntry :=
  match (FwEntry.ofContent (List.replicate 32 0)).ReadContent with
  | .ok f => f
  | .error _ => FwEntry.ofContent []

/-- A 32-byte stream: a header with the signature "XXXXXXXX", the stored
checksum 1, seven reserved bytes equal to 1 and no entries. -/
def badStream : List Nat :=
  [88, 88, 88, 88, 88, 88, 88, 88, 1, 0, 0, 0, 0, 1, 1, 1, 1, 1, 1, 1, 0, 0, 0, 0,
   0, 0, 0, 0, 0, 0, 0, 0]

/-- The table `New` decodes from `badStream`. -/
def badDecoded : FwTable :=
  match New badStream with
  | .ok fw => fw
  | .error _ => exTable

/-! ## Lemmas on the byte codec -/

theorem leBytes_length (n x : Nat) : (leBytes n x).length = n := by
  induction n generalizing x with
  | zero => rfl
  | succ n ih => simp [leBytes, ih]

theorem leValue_leBytes (n x : Nat) (h : x < 256 ^ n) : leValue (leBytes n x) = x := by
  induction n generalizing x with
  | zero => simp at h; simp [leBytes, leValue, h]
  | succ n ih =>
    have h1 : x / 256 < 256 ^ n := by
      rw [Nat.div_lt_iff_lt_mul (by norm_num)]; rw [pow_succ] at h; exact h
    simp [leBytes, leValue, ih _ h1]; omega

theorem typeCode_some (t : String) (names : List String) (k i : Nat)
    (h : typeCode t names k = some i) :
    k ≤ i ∧ i < k + names.length ∧ names.getD (i - k) "" = t := by
  induction names generalizing k with
  | nil => simp [typeCode] at h
  | cons v vs ih =>
    unfold typeCode at h
    split at h
    · next hv =>
      injection h with h; subst h; simp [hv]
    · obtain ⟨h1, h2, h3⟩ := ih (k + 1) h
      refine ⟨by omega, by simp; omega, ?_⟩
      have : i - k = (i - (k + 1)) + 1 := by omega
      rw [this]; simpa using h3

theorem typeCode_of_mem (t : String) (names : List String) (k : Nat) (h : t ∈ names) :
    ∃ i, typeCode t names k = some i := by
  induction names generalizing k with
  | nil => simp at h
  | cons v vs ih =>
    unfold typeCode
    by_cases hv : t = v
    · exact ⟨k, by simp [hv]⟩
    · simp only [hv, if_false]
      rcases List.mem_cons.mp h with h | h
      · exact absurd h hv
      · exact ih (k + 1) h

theorem typeCode_none (t : String) (names : List String) (k : Nat)
    (h : typeCode t names k = none) : t ∉ names := by
  intro hm
  obtain ⟨i, hi⟩ := typeCode_of_mem t names k hm
  rw [h] at hi; cases hi

/-! ## Firmware entries: encode, decode, payload scan -/

theorem FwEntry_decode_encode (e e1 g : FwEntry)
    (hw : e.WriteContent = .ok e1) (hg : g.content = e1.content)
    (hV : 0 ≤ e.Version ∧ e.Version < 4294967296)
    (hL : 0 ≤ e.Length ∧ e.Length < 4294967296)
    (hP : 0 ≤ e.Paddings ∧ e.Paddings < 4294967296)
    (hD : 0 ≤ e.DiskOffset ∧ e.DiskOffset < 4294967296)
    (hT : e.TargetAddress < 4294967296) (hC : e.Checksum < 4294967296) :
    ∃ d, g.ReadContent = .ok d ∧ d.Typ = e.Typ ∧ d.Lzma = e.Lzma ∧ d.ReadOnly = e.ReadOnly
      ∧ d.Version = e.Version ∧ d.TargetAddress = e.TargetAddress
      ∧ d.DiskOffset = e.DiskOffset ∧ d.Length = e.Length ∧ d.Paddings = e.Paddings
      ∧ d.Checksum = e.Checksum := by
  unfold FwEntry.WriteContent at hw
  split at hw
  · cases hw
  · next i hi =>
    obtain ⟨-, hi2, hi3⟩ := typeCode_some _ _ _ _ hi
    have hlen : FwTypes.length = 47 := rfl
    rw [hlen] at hi2
    injection hw with hw
    subst hw
    simp only [FwEntryTable.bytes, leBytes, List.replicate, List.cons_append, List.nil_append,
      List.append_nil] at hg
    unfold FwEntry.ReadContent
    rw [hg]
    simp only [binaryReadErr, fwEntrySize, List.length_cons, List.length_nil]
    simp only [FwEntryTable.ofBytes, field, List.drop, List.take, leValue]
    refine ⟨_, rfl, ?_, ?_, ?_, ?_, ?_, ?_, ?_, ?_, ?_⟩ <;> dsimp only
    · simp only [hlen]
      have : i % 256 % 256 + 256 * 0 = i := by omega
      rw [this, if_neg (by omega)]
      simpa using hi3
    · cases e.Lzma <;> cases e.ReadOnly <;> rfl
    · cases e.Lzma <;> cases e.ReadOnly <;> rfl
    · unfold toUint32; omega
    · omega
    · unfold toUint32; omega
    · unfold toUint32; omega
    · unfold toUint32; omega
    · omega

theorem FwEntry_WriteContent_ok (e : FwEntry) (h : e.Typ ∈ FwTypes) :
    ∃ e1, e.WriteContent = .ok e1 ∧ e1.content.length = 32 := by
  obtain ⟨i, hi⟩ := typeCode_of_mem e.Typ FwTypes 0 h
  unfold FwEntry.WriteContent
  rw [hi]
  exact ⟨_, rfl, by simp [FwEntryTable.bytes, leBytes_length]⟩

theorem FwEntry_WriteContent_length (e e1 : FwEntry) (h : e.WriteContent = .ok e1) :
    e1.content.length = 32 := by
  unfold FwEntry.WriteContent at h
  split at h
  · cases h
  · injection h with h; subst h
    simp [FwEntryTable.bytes, leBytes_length]

theorem readFileLoop_bytes (payload : List Nat) (cs : Nat) (size : Int) (err : Option Err)
    (hcs : cs < 4294967296) :
    readFileLoop (payload.map ReadEvent.byte) cs size err
      = ((cs + payload.sum) % 4294967296, size + payload.length, err) := by
  induction payload generalizing cs size with
  | nil => simp [readFileLoop]; omega
  | cons b bs ih =>
    simp only [List.map_cons, readFileLoop, List.sum_cons, List.length_cons]
    rw [ih _ _ (Nat.mod_lt _ (by norm_num))]
    simp only [Prod.mk.injEq, and_true]
    constructor
    · rw [Nat.mod_add_mod]; ring_nf
    · push_cast; ring

/-- C4: firmware-entry decode inverts firmware-entry encode. For an entry whose
type is one of the 47 names of `FwTypes` and whose numeric fields fit 32 bits,
`WriteContent` succeeds, produces 32 bytes, and `ReadContent` on these bytes
(from any receiver holding them) gives back every field. -/
theorem C4_FwEntry_roundtrip (e : FwEntry) (hty : e.Typ ∈ FwTypes)
    (hV : 0 ≤ e.Version ∧ e.Version < 4294967296)
    (hL : 0 ≤ e.Length ∧ e.Length < 4294967296)
    (hP : 0 ≤ e.Paddings ∧ e.Paddings < 4294967296)
    (hD : 0 ≤ e.DiskOffset ∧ e.DiskOffset < 4294967296)
    (hT : e.TargetAddress < 4294967296) (hC : e.Checksum < 4294967296) :
    FwTypes.length = 47 ∧
    ∃ e1, e.WriteContent = .ok e1 ∧ e1.content.length = 32 ∧
      ∀ g : FwEntry, g.content = e1.content →
        ∃ d, g.ReadContent = .ok d ∧ d.Typ = e.Typ ∧ d.Lzma = e.Lzma
          ∧ d.ReadOnly = e.ReadOnly ∧ d.Version = e.Version
          ∧ d.TargetAddress = e.TargetAddress ∧ d.DiskOffset = e.DiskOffset
          ∧ d.Length = e.Length ∧ d.Paddings = e.Paddings ∧ d.Checksum = e.Checksum := by
  obtain ⟨e1, he1, hlen⟩ := FwEntry_WriteContent_ok e hty
  exact ⟨rfl, e1, he1, hlen, fun g hg => FwEntry_decode_encode e e1 g he1 hg hV hL hP hD hT hC⟩

theorem C4_FwEntry_roundtrip_witness :
    FwTypes.length = 47 ∧
    ∃ e1, exFw.WriteContent = .ok e1 ∧ e1.content.length = 32 ∧
      ∀ g : FwEntry, g.content = e1.content →
        ∃ d, g.ReadContent = .ok d ∧ d.Typ = exFw.Typ ∧ d.Lzma = exFw.Lzma
          ∧ d.ReadOnly = exFw.ReadOnly ∧ d.Version = exFw.Version
          ∧ d.TargetAddress = exFw.TargetAddress ∧ d.DiskOffset = exFw.DiskOffset
          ∧ d.Length = exFw.Length ∧ d.Paddings = exFw.Paddings
          ∧ d.Checksum = exFw.Checksum :=
  C4_FwEntry_roundtrip exFw (by decide) (by decide) (by decide) (by decide) (by decide)
    (by decide) (by decide)

/-- C6: on a reader that delivers the `n` bytes of `payload` and then
end-of-stream, `ReadFile` returns no error and sets `Checksum` to the byte sum
modulo 2^32, `Length` to `n` and `Paddings` to `n + 512 - n mod 512`; all other
fields of the entry are the old ones. -/
theorem C6_ReadFile_payload (fw : FwEntry) (payload : List Nat) :
    fw.ReadFile (payload.map ReadEvent.byte)
      = .ok { fw with
          Checksum := payload.sum % 4294967296
          Length := (payload.length : Int)
          Paddings := (payload.length : Int) + 512 - (payload.length : Int) % 512 } := by
  unfold FwEntry.ReadFile
  rw [readFileLoop_bytes payload 0 0 none (by norm_num)]
  simp

/-- C10 (the code at the failing input): a reader that gives the byte 1, then
fails with an error other than end-of-stream, then gives the byte 3 and ends.
`ReadFile` returns no error, counts three bytes and sets the three fields. -/
theorem C10_ReadFile_swallows_fault :
    exFw.ReadFile [.byte 1, .fault 0, .byte 3]
      = .ok { exFw with Checksum := 4, Length := 3, Paddings := 512 } := by
  rfl

/-- C7 (the code at the failing input): on the partitions A, B, C the index 2
removes C, the index 1 removes B and the index 3 panics. -/
theorem C7_partRemove_off_by_one :
    (partRemove tableABC 2).map (fun fw => fw.Parts) = .ok [partA, partB]
    ∧ (partRemove tableABC 1).map (fun fw => fw.Parts) = .ok [partA, partC]
    ∧ partRemove tableABC 3 = .error .panic := by
  refine ⟨rfl, rfl, rfl⟩

/-- C8 (the code at the failing input): a mount point of exactly 32 bytes is
encoded without error, and fills the 32-byte field with no terminating zero. -/
theorem C8_WriteContent_accepts_32_bytes :
    partMount32.MountPoint.length = 32
    ∧ ∃ p, partMount32.WriteContent = .ok p ∧ field p.content 16 32 = List.replicate 32 97 :=
  ⟨rfl, _, rfl, rfl⟩

/-! ## The table: encode and validate -/

theorem writeParts_length (ps ps1 : List PartEntry) (i : Nat) (h : writeParts ps i = .ok ps1) :
    ps1.length = ps.length := by
  induction ps generalizing i ps1 with
  | nil => simp [writeParts] at h; subst h; rfl
  | cons p ps ih =>
    unfold writeParts at h
    split at h
    · cases h
    · split at h
      · cases h
      · next ps2 h2 =>
        injection h with h; subst h
        simp [ih _ _ h2]

theorem writeFws_length (fs fs1 : List FwEntry) (i : Nat) (h : writeFws fs i = .ok fs1) :
    fs1.length = fs.length := by
  induction fs generalizing i fs1 with
  | nil => simp [writeFws] at h; subst h; rfl
  | cons f fs ih =>
    unfold writeFws at h
    split at h
    · cases h
    · split at h
      · cases h
      · next fs2 h2 =>
        injection h with h; subst h
        simp [ih _ _ h2]

theorem WriteContent_ok_iff (fw fw1 : FwTable) (h : fw.WriteContent = .ok fw1) :
    8 ≤ fw.Signature.length ∧
    ∃ parts fws, writeParts fw.Parts 0 = .ok parts ∧ writeFws fw.Fws 0 = .ok fws ∧
      fw1.Parts = parts ∧ fw1.Fws = fws ∧ fw1.Signature = fw.Signature
      ∧ fw1.Version = fw.Version ∧ fw1.Checksum = fw.Checksum
      ∧ fw1.table = { headerOf fw with Checksum := fw1.table.Checksum }
      ∧ fw1.table.Checksum
          = ({ fw1 with content := goCopy fw.content (headerOf fw).bytes } : FwTable).checksum
      ∧ fw1.content = goCopy (goCopy fw.content (headerOf fw).bytes) fw1.table.bytes
      ∧ fw1.Size = ((headerOf fw).Paddings : Int)
      ∧ fw1.Extra = (((headerOf fw).Paddings + 4294967296
            - (fwTableSize + (headerOf fw).PartListLen + (headerOf fw).FwListLen) % 4294967296)
              % 4294967296 : Nat) := by
  unfold FwTable.WriteContent at h
  split at h
  · cases h
  · next hs =>
    split at h
    · cases h
    · next parts hp =>
      split at h
      · cases h
      · next fws hf =>
        injection h with h; subst h
        refine ⟨by omega, parts, fws, hp, hf, rfl, rfl, rfl, rfl, rfl, rfl, ?_, rfl, rfl, ?_⟩
        · rfl
        · rfl

theorem calculateChecksum_eq (l : List Nat) (s : Nat) (hs : s < 4294967296) :
    calculateChecksum l s = (s + l.sum) % 4294967296 := by
  unfold calculateChecksum
  induction l generalizing s with
  | nil => simp; omega
  | cons b bs ih =>
    simp only [List.foldl_cons, List.sum_cons]
    rw [ih _ (Nat.mod_lt _ (by norm_num)), Nat.mod_add_mod, Nat.add_assoc]

theorem calculateChecksum_lt (l : List Nat) (s : Nat) (hs : s < 4294967296) :
    calculateChecksum l s < 4294967296 := by
  rw [calculateChecksum_eq l s hs]; exact Nat.mod_lt _ (by norm_num)

theorem foldl_checksum_eq {α : Type} (f : α → List Nat) (xs : List α) (cs : Nat)
    (hcs : cs < 4294967296) :
    xs.foldl (fun cs x => calculateChecksum (f x) cs) cs
      = (cs + ((xs.map f).flatten).sum) % 4294967296 := by
  induction xs generalizing cs with
  | nil => simp; omega
  | cons x xs ih =>
    simp only [List.foldl_cons, List.map_cons, List.flatten_cons, List.sum_append]
    rw [ih _ (calculateChecksum_lt _ _ hcs), calculateChecksum_eq _ _ hcs, Nat.mod_add_mod,
      Nat.add_assoc]

theorem checksum_eq_sum (fw : FwTable) :
    fw.checksum = (coveredBytes fw).sum % 4294967296 := by
  unfold FwTable.checksum coveredBytes
  simp only []
  rw [foldl_checksum_eq (fun f : FwEntry => f.content), foldl_checksum_eq (fun p : PartEntry => p.content),
    calculateChecksum_eq _ 0 (by norm_num)]
  · simp only [List.sum_append, Nat.zero_add, Nat.mod_add_mod]
  · exact calculateChecksum_lt _ _ (by norm_num)
  · rw [foldl_checksum_eq (fun p : PartEntry => p.content) _ _ (calculateChecksum_lt _ _ (by norm_num))]
    exact Nat.mod_lt _ (by norm_num)

theorem goCopy_same_length {α : Type} (dst src : List α) (h : dst.length = src.length) :
    goCopy dst src = src := by
  unfold goCopy
  rw [h, List.take_length, ← h, List.drop_length, List.append_nil]

theorem header_bytes_length (t : FwTableHeader) (hs : t.Signature.length = 8)
    (hr : t.Reserved.length = 7) : t.bytes.length = 32 := by
  simp [FwTableHeader.bytes, leBytes_length, hs, hr]

theorem header_bytes_drop12 (t : FwTableHeader) (hs : t.Signature.length = 8) :
    t.bytes.drop 12 = leBytes 1 t.Version ++ t.Reserved ++ leBytes 4 t.Paddings
      ++ leBytes 4 t.PartListLen ++ leBytes 4 t.FwListLen := by
  have : t.bytes = (t.Signature ++ leBytes 4 t.Checksum) ++ (leBytes 1 t.Version ++ t.Reserved
      ++ leBytes 4 t.Paddings ++ leBytes 4 t.PartListLen ++ leBytes 4 t.FwListLen) := by
    simp [FwTableHeader.bytes, List.append_assoc]
  rw [this]
  exact List.drop_left' (by simp [leBytes_length, hs])

theorem readInto_length (r buffer r1 : List Nat) (n : Nat) (h : readInto r n = .ok (buffer, r1)) :
    buffer.length = n := by
  unfold readInto at h
  split at h
  · cases h
  · injection h with h
    injection h with h1 h2
    subst h1
    simp; omega

theorem New_content_length (r : List Nat) (fw : FwTable) (h : New r = .ok fw) :
    fw.content.length = 32 := by
  unfold New at h
  split at h
  · cases h
  · next buffer r1 hr =>
    have hb := readInto_length _ _ _ _ hr
    split at h
    · cases h
    · next fw0 h0 =>
      have hc : fw0.content = buffer := by
        unfold FwTable.ReadContent at h0
        split at h0
        · cases h0
        · injection h0 with h0; subst h0; rfl
      split at h
      · cases h
      · split at h
        · cases h
        · split at h
          · cases h
          · split at h
            · cases h
            · injection h with h; subst h
              simpa [hc] using hb

theorem headerOf_signature_length (fw : FwTable) (h : 8 ≤ fw.Signature.length) :
    (headerOf fw).Signature.length = 8 := by
  simp [headerOf, h]

theorem WriteContent_content (fw fw1 : FwTable) (hlen : fw.content.length = 32)
    (h : fw.WriteContent = .ok fw1) :
    fw1.content = fw1.table.bytes ∧ fw1.content.length = 32
      ∧ fw1.table.Checksum = fw1.checksum := by
  obtain ⟨hs, parts, fws, -, -, hP, hF, -, -, -, ht, hc, hcont, -, -⟩ :=
    WriteContent_ok_iff fw fw1 h
  have hs0 := headerOf_signature_length fw hs
  have hb0 : (headerOf fw).bytes.length = 32 :=
    header_bytes_length _ hs0 (by simp [headerOf])
  have hs1 : fw1.table.Signature.length = 8 := by rw [ht]; exact hs0
  have hb1 : fw1.table.bytes.length = 32 :=
    header_bytes_length _ hs1 (by rw [ht]; simp [headerOf])
  have h0 : goCopy fw.content (headerOf fw).bytes = (headerOf fw).bytes :=
    goCopy_same_length _ _ (by rw [hlen, hb0])
  rw [h0] at hcont hc
  have h1 : goCopy (headerOf fw).bytes fw1.table.bytes = fw1.table.bytes :=
    goCopy_same_length _ _ (by rw [hb0, hb1])
  rw [h1] at hcont
  refine ⟨hcont, by rw [hcont, hb1], ?_⟩
  rw [hc, checksum_eq_sum, checksum_eq_sum]
  unfold coveredBytes
  simp only []
  rw [hcont, header_bytes_drop12 _ hs0, header_bytes_drop12 _ hs1, ht]

/-- C5: after `WriteContent` on a table with `p` partition entries and `f`
firmware entries, with `t = 32 + 48 p + 32 f < 2^32 - 512`, the header field
`Paddings` (the total size) and `Size` are `t + 512 - t mod 512`, a multiple of
512 strictly above `t`, and `Extra = Size - t` lies in 1..512. -/
theorem C5_WriteContent_totalSize (fw fw1 : FwTable) (t : Nat)
    (hw : fw.WriteContent = .ok fw1)
    (ht : t = 32 + 48 * fw.Parts.length + 32 * fw.Fws.length)
    (hb : t < 4294967296 - 512) :
    fw1.table.Paddings = t + 512 - t % 512
    ∧ fw1.Size = ((t + 512 - t % 512 : Nat) : Int)
    ∧ fw1.Size % 512 = 0 ∧ (t : Int) < fw1.Size
    ∧ fw1.Extra = fw1.Size - (t : Int) ∧ 1 ≤ fw1.Extra ∧ fw1.Extra ≤ 512
    ∧ fw1.Parts.length = fw.Parts.length ∧ fw1.Fws.length = fw.Fws.length := by
  obtain ⟨-, parts, fws, hp, hf, hP, hF, -, -, -, htab, -, -, hsz, hex⟩ :=
    WriteContent_ok_iff fw fw1 hw
  have hpl : fw1.Parts.length = fw.Parts.length := by rw [hP]; exact writeParts_length _ _ _ hp
  have hfl : fw1.Fws.length = fw.Fws.length := by rw [hF]; exact writeFws_length _ _ _ hf
  have h1 : (headerOf fw).PartListLen = (48 * fw.Parts.length) % 4294967296 := rfl
  have h2 : (headerOf fw).FwListLen = (32 * fw.Fws.length) % 4294967296 := rfl
  have h3 : (headerOf fw).Paddings
      = ((32 + (headerOf fw).PartListLen + (headerOf fw).FwListLen) % 4294967296 + 512
          - (32 + (headerOf fw).PartListLen + (headerOf fw).FwListLen) % 4294967296 % 512)
          % 4294967296 := rfl
  have h4 : fwTableSize = 32 := rfl
  have h5 : fw1.table.Paddings = (headerOf fw).Paddings := by rw [htab]
  have e1 : (headerOf fw).PartListLen = 48 * fw.Parts.length := by rw [h1]; omega
  have e2 : (headerOf fw).FwListLen = 32 * fw.Fws.length := by rw [h2]; omega
  have e3 : 32 + (headerOf fw).PartListLen + (headerOf fw).FwListLen = t := by
    rw [e1, e2, ht]
  have e4 : t % 4294967296 = t := Nat.mod_eq_of_lt (by omega)
  have e5 : (headerOf fw).Paddings = t + 512 - t % 512 := by
    rw [h3, e3, e4]; exact Nat.mod_eq_of_lt (by omega)
  have e6 : fw1.Extra = ((512 - t % 512 : Nat) : Int) := by
    rw [hex, h4, e3, e4, e5]
    congr 1
    omega
  rw [hsz, h5, e5, e6]
  refine ⟨rfl, rfl, ?_, ?_, ?_, ?_, ?_, hpl, hfl⟩ <;> omega

theorem C5_WriteContent_totalSize_witness :
    exTableWritten.table.Paddings = 112 + 512 - 112 % 512
    ∧ exTableWritten.Size = ((112 + 512 - 112 % 512 : Nat) : Int)
    ∧ exTableWritten.Size % 512 = 0 ∧ ((112 : Nat) : Int) < exTableWritten.Size
    ∧ exTableWritten.Extra = exTableWritten.Size - ((112 : Nat) : Int)
    ∧ 1 ≤ exTableWritten.Extra ∧ exTableWritten.Extra ≤ 512
    ∧ exTableWritten.Parts.length = exTable.Parts.length
    ∧ exTableWritten.Fws.length = exTable.Fws.length :=
  C5_WriteContent_totalSize exTable exTableWritten 112 rfl rfl (by decide)

theorem Validate_of_written (fw : FwTable) (hr : fw.table.Reserved = List.replicate 7 0)
    (hc : fw.table.Checksum = fw.checksum) :
    fw.Validate = if fw.Signature ≠ signatureVERONA then [.signature fw.Signature] else [] := by
  unfold FwTable.Validate
  simp only [hr, hc]
  simp [List.replicate]

/-- C1: a table obtained by `New` whose partition and firmware lists are then
replaced by any lists (every sequence of additions, updates and removals), and
on which `WriteContent` returns no error, has a stored checksum equal to the
recomputed one, which is the sum modulo 2^32 of the 20 header bytes from offset
12 on followed by the bytes of every partition entry and of every firmware
entry; the reserved bytes are zero; so `Validate` can only report the signature
and returns nothing exactly when the signature is "VERONA__". -/
theorem C1_WriteContent_then_Validate (r : List Nat) (fw0 fw1 : FwTable)
    (parts : List PartEntry) (fws : List FwEntry) (hnew : New r = .ok fw0)
    (hw : ({ fw0 with Parts := parts, Fws := fws } : FwTable).WriteContent = .ok fw1) :
    fw1.table.Checksum = fw1.checksum
    ∧ fw1.checksum = (coveredBytes fw1).sum % 4294967296
    ∧ (fw1.content.drop 12).length = 20
    ∧ fw1.table.Reserved = List.replicate 7 0
    ∧ (∀ v ∈ fw1.Validate, v = Violation.signature fw1.Signature)
    ∧ (fw1.Validate = [] ↔ fw1.Signature = signatureVERONA) := by
  have hlen : ({ fw0 with Parts := parts, Fws := fws } : FwTable).content.length = 32 :=
    New_content_length r fw0 hnew
  obtain ⟨-, hl1, hc⟩ := WriteContent_content _ fw1 hlen hw
  obtain ⟨-, -, -, -, -, -, -, -, -, -, htab, -⟩ := WriteContent_ok_iff _ fw1 hw
  have hr : fw1.table.Reserved = List.replicate 7 0 := by rw [htab]; rfl
  have hv := Validate_of_written fw1 hr hc
  refine ⟨hc, checksum_eq_sum fw1, by simp [hl1], hr, ?_, ?_⟩
  · intro v hv1
    rw [hv] at hv1
    split at hv1
    · simpa using hv1
    · simp at hv1
  · rw [hv]
    by_cases hs : fw1.Signature = signatureVERONA <;> simp [hs]

/-! ## Partition entries: encode and decode -/

theorem PartEntry_decode_encode (e e1 g : PartEntry) (hlen : e.content.length = 48)
    (hw : e.WriteContent = .ok e1) (hg : g.content = e1.content)
    (hF : 0 ≤ e.FwCount ∧ e.FwCount < 256) (hL : e.Lenght < 18446744073709551616) :
    e1.content.length = 48 ∧
    ∃ d, g.ReadContent = .ok d ∧ d.Typ = e.Typ ∧ d.FwType = e.FwType
      ∧ d.ReadOnly = e.ReadOnly ∧ d.Lenght = e.Lenght ∧ d.FwCount = e.FwCount
      ∧ d.MountPoint = e.MountPoint ++ List.replicate (32 - e.MountPoint.length) 0
      ∧ d.EmmcPartID = g.EmmcPartID ∧ d.table.EmmcPartID = toUint8 e.EmmcPartID
      ∧ d.content = e1.content := by
  unfold PartEntry.WriteContent at hw
  cases hi : typeCode e.Typ partTypes 0 with
  | none => rw [hi] at hw; cases hw
  | some i =>
    cases hj : typeCode e.FwType partFileSystemTypes 0 with
    | none => rw [hi, hj] at hw; cases hw
    | some j =>
      by_cases hmp : e.MountPoint.length > 32
      · simp only [hi, hj, hmp, if_true] at hw; cases hw
      · simp only [hi, hj, hmp, if_false] at hw
        obtain ⟨-, hi2, hi3⟩ := typeCode_some _ _ _ _ hi
        obtain ⟨-, hj2, hj3⟩ := typeCode_some _ _ _ _ hj
        have hpl : partTypes.length = 3 := rfl
        have hfl : partFileSystemTypes.length = 8 := rfl
        rw [hpl] at hi2
        rw [hfl] at hj2
        injection hw with hw
        subst hw
        have htl : (e.MountPoint ++ List.replicate (32 - e.MountPoint.length) 0).length = 32 := by
          simp; omega
        generalize e.MountPoint ++ List.replicate (32 - e.MountPoint.length) 0 = tail at *
        simp only [PartEntryTable.bytes, leBytes, List.replicate, List.cons_append,
          List.nil_append, List.append_nil] at hg
        rw [goCopy_same_length _ _ (by simp [hlen, htl])] at hg
        simp only [PartEntryTable.bytes, leBytes, List.replicate, List.cons_append,
          List.nil_append, List.append_nil]
        rw [goCopy_same_length _ _ (by simp [hlen, htl])]
        refine ⟨by simp [htl], ?_⟩
        unfold PartEntry.ReadContent
        rw [hg]
        simp only [binaryReadErr, partEntrySize, List.length_cons, htl]
        simp only [PartEntryTable.ofBytes, field, List.drop, List.take, leValue,
          List.take_of_length_le (Nat.le_of_eq htl)]
        refine ⟨_, rfl, ?_, ?_, ?_, ?_, ?_, rfl, rfl, ?_, ?_⟩ <;> dsimp only
        · simp only [hpl]
          have : i % 256 % 256 + 256 * 0 = i := by omega
          rw [this, if_neg (by omega)]
          simpa using hi3
        · simp only [hfl]
          have : j % 256 % 256 + 256 * 0 = j := by omega
          rw [this, if_neg (by omega)]
          simpa using hj3
        · cases e.ReadOnly <;> rfl
        · omega
        · unfold toUint8; omega
        · unfold toUint8; omega

/-- C3 (as stated, refuted): the entry `exPart` has mount point "/" and
`EmmcPartID = 1`; its encoding succeeds and holds 1 at offset 12, yet decoding
the 48 bytes as `New` does yields a 32-byte mount point and `EmmcPartID = 0`. -/
theorem C3_PartEntry_roundtrip_counterexample :
    ∃ e1 d, exPart.WriteContent = .ok e1 ∧ e1.content.length = 48
      ∧ field e1.content 12 1 = [1]
      ∧ (PartEntry.ofContent e1.content).ReadContent = .ok d
      ∧ d.MountPoint ≠ exPart.MountPoint ∧ d.EmmcPartID ≠ exPart.EmmcPartID :=
  ⟨_, _, rfl, rfl, rfl, rfl, by decide, by decide⟩

/-- C3 (amended): for a partition entry with a 48-byte buffer whose
`WriteContent` succeeds, with `FwCount` in 0..255 and a 64-bit length,
`ReadContent` on the 48 encoded bytes (from any receiver holding them) gives
back the type, the read-only flag, the length, the firmware count, the
filesystem type, and the mount point followed by zero bytes up to 32 bytes. -/
theorem C3_PartEntry_roundtrip_amended (e e1 g : PartEntry) (hlen : e.content.length = 48)
    (hw : e.WriteContent = .ok e1) (hg : g.content = e1.content)
    (hF : 0 ≤ e.FwCount ∧ e.FwCount < 256) (hL : e.Lenght < 18446744073709551616) :
    e1.content.length = 48 ∧
    ∃ d, g.ReadContent = .ok d ∧ d.Typ = e.Typ ∧ d.ReadOnly = e.ReadOnly
      ∧ d.Lenght = e.Lenght ∧ d.FwCount = e.FwCount ∧ d.FwType = e.FwType
      ∧ d.MountPoint = e.MountPoint ++ List.replicate (32 - e.MountPoint.length) 0 := by
  obtain ⟨h48, d, h1, h2, h3, h4, h5, h6, h7, -⟩ :=
    PartEntry_decode_encode e e1 g hlen hw hg hF hL
  exact ⟨h48, d, h1, h2, h4, h5, h6, h3, h7⟩

theorem C3_PartEntry_roundtrip_amended_witness :
    exPartWritten.content.length = 48 ∧
    ∃ d, (PartEntry.ofContent exPartWritten.content).ReadContent = .ok d
      ∧ d.Typ = exPart.Typ ∧ d.ReadOnly = exPart.ReadOnly ∧ d.Lenght = exPart.Lenght
      ∧ d.FwCount = exPart.FwCount ∧ d.FwType = exPart.FwType
      ∧ d.MountPoint = exPart.MountPoint ++ List.replicate (32 - exPart.MountPoint.length) 0 :=
  C3_PartEntry_roundtrip_amended exPart exPartWritten (PartEntry.ofContent exPartWritten.content)
    rfl rfl rfl (by decide) (by decide)

set_option maxRecDepth 100000 in
theorem C1_WriteContent_then_Validate_witness :
    exChangedWritten.table.Checksum = exChangedWritten.checksum
    ∧ exChangedWritten.checksum = (coveredBytes exChangedWritten).sum % 4294967296
    ∧ (exChangedWritten.content.drop 12).length = 20
    ∧ exChangedWritten.table.Reserved = List.replicate 7 0
    ∧ (∀ v ∈ exChangedWritten.Validate, v = Violation.signature exChangedWritten.Signature)
    ∧ (exChangedWritten.Validate = [] ↔ exChangedWritten.Signature = signatureVERONA) :=
  C1_WriteContent_then_Validate exStream exDecoded exChangedWritten
    exDecoded.Parts (exDecoded.Fws ++ [exFwBoot]) rfl rfl

/-! ## The exported stream and its decoding -/

theorem readInto_full (r : List Nat) (n : Nat) (hn : 0 < n) (h : n ≤ r.length) :
    readInto r n = .ok (r.take n, r.drop n) := by
  unfold readInto
  rw [if_neg (by omega)]
  have : n - r.length = 0 := by omega
  simp [this]

theorem PartEntry_ReadContent_ok (g : PartEntry) (h : 48 ≤ g.content.length) :
    ∃ d, g.ReadContent = .ok d ∧ d.content = g.content := by
  unfold PartEntry.ReadContent binaryReadErr
  rw [if_neg (by omega), if_neg (by simp [partEntrySize]; omega)]
  exact ⟨_, rfl, rfl⟩

theorem FwEntry_ReadContent_ok (g : FwEntry) (h : 32 ≤ g.content.length) :
    ∃ d, g.ReadContent = .ok d ∧ d.content = g.content := by
  unfold FwEntry.ReadContent binaryReadErr
  rw [if_neg (by omega), if_neg (by simp [fwEntrySize]; omega)]
  exact ⟨_, rfl, rfl⟩

theorem readParts_stream (k i : Nat) (r : List Nat) (h : 48 * k < r.length) :
    ∃ ds, readParts k i r = .ok (ds, r.drop (48 * k)) ∧ ds.length = k
      ∧ (ds.map (fun p => p.content)).flatten = r.take (48 * k) := by
  induction k generalizing i r with
  | zero => exact ⟨[], by simp [readParts], rfl, by simp⟩
  | succ k ih =>
    unfold readParts
    rw [readInto_full r partEntrySize (by decide) (by simp [partEntrySize]; omega)]
    obtain ⟨d, hd, hdc⟩ := PartEntry_ReadContent_ok (PartEntry.ofContent (r.take partEntrySize))
      (by simp [PartEntry.ofContent, partEntrySize]; omega)
    obtain ⟨ds, hds, hl, hf⟩ := ih (i + 1) (r.drop partEntrySize)
      (by simp [partEntrySize]; omega)
    simp only [hd, hds]
    refine ⟨d :: ds, ?_, by simp [hl], ?_⟩
    · simp [partEntrySize, List.drop_drop]
      congr 1; omega
    · simp only [List.map_cons, List.flatten_cons, hf, hdc]
      simp only [PartEntry.ofContent, partEntrySize]
      rw [show 48 * (k + 1) = 48 + 48 * k by ring, List.take_add]

theorem readFws_stream (k i : Nat) (r : List Nat) (h : 32 * k < r.length) :
    ∃ ds, readFws k i r = .ok (ds, r.drop (32 * k)) ∧ ds.length = k
      ∧ (ds.map (fun f => f.content)).flatten = r.take (32 * k) := by
  induction k generalizing i r with
  | zero => exact ⟨[], by simp [readFws], rfl, by simp⟩
  | succ k ih =>
    unfold readFws
    rw [readInto_full r fwEntrySize (by decide) (by simp [fwEntrySize]; omega)]
    obtain ⟨d, hd, hdc⟩ := FwEntry_ReadContent_ok (FwEntry.ofContent (r.take fwEntrySize))
      (by simp [FwEntry.ofContent, fwEntrySize]; omega)
    obtain ⟨ds, hds, hl, hf⟩ := ih (i + 1) (r.drop fwEntrySize)
      (by simp [fwEntrySize]; omega)
    simp only [hd, hds]
    refine ⟨d :: ds, ?_, by simp [hl], ?_⟩
    · simp [fwEntrySize, List.drop_drop]
      congr 1; omega
    · simp only [List.map_cons, List.flatten_cons, hf, hdc]
      simp only [FwEntry.ofContent, fwEntrySize]
      rw [show 32 * (k + 1) = 32 + 32 * k by ring, List.take_add]

theorem FwTable_ReadContent_ok (b : List Nat) (h : b.length = 32) :
    ∃ fw0, (FwTable.ofContent b).ReadContent = .ok fw0 ∧ fw0.content = b
      ∧ fw0.table = FwTableHeader.ofBytes b ∧ fw0.Signature = (FwTableHeader.ofBytes b).Signature
      ∧ fw0.Version = ((FwTableHeader.ofBytes b).Version : Int)
      ∧ fw0.Checksum = (FwTableHeader.ofBytes b).Checksum := by
  unfold FwTable.ReadContent binaryReadErr
  simp only [FwTable.ofContent, h, fwTableSize]
  exact ⟨_, rfl, rfl, rfl, rfl, rfl, rfl⟩

theorem New_of_reads (s : List Nat) (p f : Nat) (ps : List PartEntry) (fs : List FwEntry)
    (r2 r3 : List Nat) (h32 : 32 ≤ s.length)
    (hp : (FwTableHeader.ofBytes (s.take 32)).PartListLen = 48 * p)
    (hf : (FwTableHeader.ofBytes (s.take 32)).FwListLen = 32 * f)
    (hps : readParts p 0 (s.drop 32) = .ok (ps, r2))
    (hfs : readFws f 0 r2 = .ok (fs, r3)) :
    ∃ fw, New s = .ok fw ∧ fw.Parts = ps ∧ fw.Fws = fs ∧ fw.content = s.take 32
      ∧ fw.table = FwTableHeader.ofBytes (s.take 32)
      ∧ fw.Signature = fw.table.Signature ∧ fw.Version = (fw.table.Version : Int) := by
  obtain ⟨fw0, h0, hc0, ht0, hs0, hv0, -⟩ :=
    FwTable_ReadContent_ok (s.take 32) (by simp; omega)
  have e1 : fw0.table.PartListLen = 48 * p := by rw [ht0, hp]
  have e2 : fw0.table.FwListLen = 32 * f := by rw [ht0, hf]
  refine ⟨{ fw0 with Parts := ps, Fws := fs }, ?_, rfl, rfl, hc0, ht0, ?_, ?_⟩
  · unfold New
    rw [readInto_full s fwTableSize (by decide) (by simp [fwTableSize]; omega)]
    simp only [fwTableSize, h0, e1, e2, partEntrySize, fwEntrySize]
    simp only [Nat.mul_mod_right, ne_eq, not_true_eq_false, if_false,
      Nat.mul_div_cancel_left _ (show 0 < 48 by decide),
      Nat.mul_div_cancel_left _ (show 0 < 32 by decide), hps, hfs]
  · rw [hs0, ht0]
  · rw [hv0, ht0]

theorem New_stream (s : List Nat) (p f : Nat)
    (hp : (FwTableHeader.ofBytes (s.take 32)).PartListLen = 48 * p)
    (hf : (FwTableHeader.ofBytes (s.take 32)).FwListLen = 32 * f)
    (hlen : 32 + 48 * p + 32 * f < s.length) :
    ∃ fw, New s = .ok fw ∧ fw.content = s.take 32
      ∧ fw.table = FwTableHeader.ofBytes (s.take 32)
      ∧ fw.Signature = fw.table.Signature ∧ fw.Version = (fw.table.Version : Int)
      ∧ fw.Parts.length = p ∧ fw.Fws.length = f
      ∧ (fw.Parts.map (fun p => p.content)).flatten = (s.drop 32).take (48 * p)
      ∧ (fw.Fws.map (fun f => f.content)).flatten = (s.drop (32 + 48 * p)).take (32 * f) := by
  obtain ⟨ps, hps, hpl, hpf⟩ := readParts_stream p 0 (s.drop 32) (by simp; omega)
  obtain ⟨fs, hfs, hfl, hff⟩ := readFws_stream f 0 ((s.drop 32).drop (48 * p))
    (by simp; omega)
  obtain ⟨fw, hnew, hP, hF, hc, ht, hs, hv⟩ :=
    New_of_reads s p f ps fs _ _ (by omega) hp hf hps hfs
  refine ⟨fw, hnew, hc, ht, hs, hv, by rw [hP, hpl], by rw [hF, hfl], by rw [hP, hpf], ?_⟩
  rw [hF, hff, List.drop_drop]

theorem header_ofBytes_bytes (t : FwTableHeader) (hs : t.Signature.length = 8)
    (hr : t.Reserved.length = 7) (hc : t.Checksum < 4294967296) (hv : t.Version < 256)
    (hp : t.Paddings < 4294967296) (hpl : t.PartListLen < 4294967296)
    (hfl : t.FwListLen < 4294967296) : FwTableHeader.ofBytes t.bytes = t := by
  obtain ⟨sig, cs, ver, res, pad, pl, fl⟩ := t
  simp only at hs hr hc hv hp hpl hfl
  rcases sig with _ | ⟨s0, _ | ⟨s1, _ | ⟨s2, _ | ⟨s3, _ | ⟨s4, _ | ⟨s5, _ | ⟨s6, _ | ⟨s7, _ | ⟨s8, sig⟩⟩⟩⟩⟩⟩⟩⟩⟩ <;>
    simp at hs
  rcases res with _ | ⟨r0, _ | ⟨r1, _ | ⟨r2, _ | ⟨r3, _ | ⟨r4, _ | ⟨r5, _ | ⟨r6, _ | ⟨r7, res⟩⟩⟩⟩⟩⟩⟩⟩ <;>
    simp at hr
  simp only [FwTableHeader.bytes, leBytes, List.cons_append, List.nil_append, List.append_nil,
    FwTableHeader.ofBytes, field, List.drop, List.take, leValue, FwTableHeader.mk.injEq,
    true_and]
  refine ⟨?_, ?_, ?_, ?_, ?_⟩ <;> omega

theorem exportWrite_buffer (s bs : List Nat) (seg : Segment) :
    exportWrite bufferWriter s bs seg = .ok (s ++ bs) := by
  simp [exportWrite, bufferWriter]

theorem exportParts_buffer (ps : List PartEntry) (i : Nat) (s : List Nat) (w : Nat) :
    exportParts bufferWriter ps i s w
      = .ok (s ++ (ps.map (fun p => p.content)).flatten,
             w + ((ps.map (fun p => p.content)).flatten).length) := by
  induction ps generalizing i s w with
  | nil => simp [exportParts]
  | cons p ps ih =>
    simp only [exportParts, exportWrite_buffer, ih, List.map_cons, List.flatten_cons,
      List.append_assoc, List.length_append, Nat.add_assoc]

theorem exportFws_buffer (fs : List FwEntry) (i : Nat) (s : List Nat) (w : Nat) :
    exportFws bufferWriter fs i s w
      = .ok (s ++ (fs.map (fun f => f.content)).flatten,
             w + ((fs.map (fun f => f.content)).flatten).length) := by
  induction fs generalizing i s w with
  | nil => simp [exportFws]
  | cons f fs ih =>
    simp only [exportFws, exportWrite_buffer, ih, List.map_cons, List.flatten_cons,
      List.append_assoc, List.length_append, Nat.add_assoc]

theorem flatten_length_of_forall {α : Type} (f : α → List Nat) (n : Nat) (xs : List α)
    (h : ∀ x ∈ xs, (f x).length = n) : ((xs.map f).flatten).length = n * xs.length := by
  induction xs with
  | nil => simp
  | cons x xs ih =>
    simp only [List.map_cons, List.flatten_cons, List.length_append, List.length_cons]
    rw [h x (List.mem_cons_self _ _), ih (fun y hy => h y (List.mem_cons_of_mem _ hy))]
    ring

theorem Export_buffer (fw : FwTable) (n : Nat)
    (h : fw.Size = ((fw.content.length + ((fw.Parts.map (fun p => p.content)).flatten).length
          + ((fw.Fws.map (fun f => f.content)).flatten).length + n : Nat) : Int)) :
    fw.Export bufferWriter []
      = .ok (fw.content ++ (fw.Parts.map (fun p => p.content)).flatten
          ++ (fw.Fws.map (fun f => f.content)).flatten ++ List.replicate n 0) := by
  unfold FwTable.Export
  simp only [exportWrite_buffer, exportParts_buffer, exportFws_buffer, List.nil_append]
  rw [h, if_neg (by omega)]
  congr 3
  omega

theorem goCopy_length {α : Type} (dst src : List α) : (goCopy dst src).length = dst.length := by
  simp [goCopy]; omega

theorem PartEntry_WriteContent_length (p p1 : PartEntry) (h : p.WriteContent = .ok p1) :
    p1.content.length = p.content.length := by
  unfold PartEntry.WriteContent at h
  cases hi : typeCode p.Typ partTypes 0 with
  | none => rw [hi] at h; cases h
  | some i =>
    cases hj : typeCode p.FwType partFileSystemTypes 0 with
    | none => rw [hi, hj] at h; cases h
    | some j =>
      by_cases hmp : p.MountPoint.length > 32
      · simp only [hi, hj, hmp, if_true] at h; cases h
      · simp only [hi, hj, hmp, if_false] at h
        injection h with h; subst h
        exact goCopy_length _ _

theorem writeParts_content_length (ps ps1 : List PartEntry) (i : Nat)
    (h : writeParts ps i = .ok ps1) (hc : ∀ p ∈ ps, p.content.length = 48) :
    ∀ p ∈ ps1, p.content.length = 48 := by
  induction ps generalizing i ps1 with
  | nil => simp [writeParts] at h; subst h; simp
  | cons p ps ih =>
    unfold writeParts at h
    split at h
    · cases h
    · next p1 hp1 =>
      split at h
      · cases h
      · next ps2 h2 =>
        injection h with h; subst h
        intro q hq
        rcases List.mem_cons.mp hq with rfl | hq
        · rw [PartEntry_WriteContent_length _ _ hp1]; exact hc p (List.mem_cons_self _ _)
        · exact ih _ _ h2 (fun y hy => hc y (List.mem_cons_of_mem _ hy)) q hq

theorem writeFws_content_length (fs fs1 : List FwEntry) (i : Nat)
    (h : writeFws fs i = .ok fs1) : ∀ f ∈ fs1, f.content.length = 32 := by
  induction fs generalizing i fs1 with
  | nil => simp [writeFws] at h; subst h; simp
  | cons f fs ih =>
    unfold writeFws at h
    split at h
    · cases h
    · next f1 hf1 =>
      split at h
      · cases h
      · next fs2 h2 =>
        injection h with h; subst h
        intro q hq
        rcases List.mem_cons.mp hq with rfl | hq
        · exact FwEntry_WriteContent_length _ _ hf1
        · exact ih _ _ h2 q hq

theorem checksum_lt (fw : FwTable) : fw.checksum < 4294967296 := by
  rw [checksum_eq_sum]; exact Nat.mod_lt _ (by norm_num)

theorem written_export (fw fw1 : FwTable)
    (hc : fw.content.length = 32) (hpc : ∀ p ∈ fw.Parts, p.content.length = 48)
    (hsz : 32 + 48 * fw.Parts.length + 32 * fw.Fws.length < 4294967296 - 512)
    (hw : fw.WriteContent = .ok fw1) :
    fw1.Export bufferWriter []
      = .ok (fw1.content ++ (fw1.Parts.map (fun p => p.content)).flatten
          ++ (fw1.Fws.map (fun f => f.content)).flatten
          ++ List.replicate
              (512 - (32 + 48 * fw.Parts.length + 32 * fw.Fws.length) % 512) 0)
    ∧ fw1.content.length = 32
    ∧ ((fw1.Parts.map (fun p => p.content)).flatten).length = 48 * fw.Parts.length
    ∧ ((fw1.Fws.map (fun f => f.content)).flatten).length = 32 * fw.Fws.length
    ∧ FwTableHeader.ofBytes fw1.content = fw1.table
    ∧ fw1.table.PartListLen = 48 * fw.Parts.length
    ∧ fw1.table.FwListLen = 32 * fw.Fws.length
    ∧ fw1.table.Checksum = fw1.checksum
    ∧ fw1.table.Signature = fw.Signature.take 8
    ∧ fw1.table.Version = toUint8 fw.Version := by
  obtain ⟨hcont, hl1, hck⟩ := WriteContent_content fw fw1 hc hw
  obtain ⟨hs8, parts, fws, hp, hf, hP, hF, -, -, -, htab, -, -, hsize, -⟩ :=
    WriteContent_ok_iff fw fw1 hw
  have hpl : fw1.Parts.length = fw.Parts.length := by rw [hP]; exact writeParts_length _ _ _ hp
  have hfl : fw1.Fws.length = fw.Fws.length := by rw [hF]; exact writeFws_length _ _ _ hf
  have hPlen : ((fw1.Parts.map (fun p => p.content)).flatten).length = 48 * fw.Parts.length := by
    rw [flatten_length_of_forall _ 48 _
      (by rw [hP]; exact writeParts_content_length _ _ _ hp hpc), hpl]
  have hFlen : ((fw1.Fws.map (fun f => f.content)).flatten).length = 32 * fw.Fws.length := by
    rw [flatten_length_of_forall _ 32 _
      (by rw [hF]; exact writeFws_content_length _ _ _ hf), hfl]
  have e1 : (headerOf fw).PartListLen = 48 * fw.Parts.length := by
    show (48 * fw.Parts.length) % 4294967296 = _; omega
  have e2 : (headerOf fw).FwListLen = 32 * fw.Fws.length := by
    show (32 * fw.Fws.length) % 4294967296 = _; omega
  have e3 : (headerOf fw).Paddings
      = ((32 + (headerOf fw).PartListLen + (headerOf fw).FwListLen) % 4294967296 + 512
          - (32 + (headerOf fw).PartListLen + (headerOf fw).FwListLen) % 4294967296 % 512)
          % 4294967296 := rfl
  have e4 : (headerOf fw).Paddings
      = 32 + 48 * fw.Parts.length + 32 * fw.Fws.length
        + (512 - (32 + 48 * fw.Parts.length + 32 * fw.Fws.length) % 512) := by
    have e5 : (32 + 48 * fw.Parts.length + 32 * fw.Fws.length) % 4294967296
        = 32 + 48 * fw.Parts.length + 32 * fw.Fws.length := Nat.mod_eq_of_lt (by omega)
    rw [e3, e1, e2, e5]
    generalize 32 + 48 * fw.Parts.length + 32 * fw.Fws.length = t at hsz ⊢
    rw [Nat.mod_eq_of_lt (by omega)]
    omega
  have t1 : fw1.table.PartListLen = 48 * fw.Parts.length := by rw [htab]; exact e1
  have t2 : fw1.table.FwListLen = 32 * fw.Fws.length := by rw [htab]; exact e2
  have t3 : fw1.table.Paddings = (headerOf fw).Paddings := by rw [htab]
  have t4 : fw1.table.Signature = fw.Signature.take 8 := by rw [htab]; rfl
  have t5 : fw1.table.Version = toUint8 fw.Version := by rw [htab]; rfl
  have t6 : fw1.table.Reserved = List.replicate 7 0 := by rw [htab]; rfl
  have hdec : FwTableHeader.ofBytes fw1.content = fw1.table := by
    rw [hcont]
    apply header_ofBytes_bytes
    · rw [t4]; simp; omega
    · rw [t6]; rfl
    · rw [hck]; exact checksum_lt _
    · rw [t5]; unfold toUint8; omega
    · rw [t3, e4]; omega
    · rw [t1]; omega
    · rw [t2]; omega
  have hexp := Export_buffer fw1
    (512 - (32 + 48 * fw.Parts.length + 32 * fw.Fws.length) % 512)
    (by rw [hsize, hl1, hPlen, hFlen, e4])
  exact ⟨hexp, hl1, hPlen, hFlen, hdec, t1, t2, hck, t4, t5⟩

theorem written_stream (fw fw1 : FwTable) (s : List Nat)
    (hc : fw.content.length = 32) (hpc : ∀ p ∈ fw.Parts, p.content.length = 48)
    (hsz : 32 + 48 * fw.Parts.length + 32 * fw.Fws.length < 4294967296 - 512)
    (hw : fw.WriteContent = .ok fw1) (he : fw1.Export bufferWriter [] = .ok s) :
    s = fw1.content ++ (fw1.Parts.map (fun p => p.content)).flatten
          ++ (fw1.Fws.map (fun f => f.content)).flatten
          ++ List.replicate
              (512 - (32 + 48 * fw.Parts.length + 32 * fw.Fws.length) % 512) 0
    ∧ fw1.content.length = 32
    ∧ ((fw1.Parts.map (fun p => p.content)).flatten).length = 48 * fw.Parts.length
    ∧ ((fw1.Fws.map (fun f => f.content)).flatten).length = 32 * fw.Fws.length
    ∧ FwTableHeader.ofBytes fw1.content = fw1.table
    ∧ fw1.table.PartListLen = 48 * fw.Parts.length
    ∧ fw1.table.FwListLen = 32 * fw.Fws.length
    ∧ fw1.table.Checksum = fw1.checksum
    ∧ fw1.table.Signature = fw.Signature.take 8
    ∧ fw1.table.Version = toUint8 fw.Version := by
  obtain ⟨hexp, hrest⟩ := written_export fw fw1 hc hpc hsz hw
  rw [hexp] at he
  injection he with he
  exact ⟨he.symm, hrest⟩

/-! ## Corruption of the exported stream -/

theorem field_set_outside (c : List Nat) (o w i v : Nat) (h : i < o ∨ o + w ≤ i) :
    field (c.set i v) o w = field c o w := by
  unfold field
  rcases h with h | h
  · rw [List.drop_set_of_lt _ _ h]
  · rw [List.drop_set, if_neg (by omega), List.set_take,
      List.set_eq_of_length_le (by simp; omega)]

theorem sum_set (l : List Nat) (i v : Nat) (h : i < l.length) :
    (l.set i v).sum + l.getD i 0 = l.sum + v := by
  induction l generalizing i with
  | nil => simp at h
  | cons a l ih =>
    cases i with
    | zero => simp; omega
    | succ i =>
      have := ih i (by simpa using h)
      simp only [List.set_cons_succ, List.sum_cons, List.getD_cons_succ]
      omega

theorem covered_of_stream (s : List Nat) (a b : Nat) (h : 32 ≤ s.length) :
    (s.take 32).drop 12 ++ (s.drop 32).take a ++ (s.drop (32 + a)).take b
      = (s.take (32 + a + b)).drop 12 := by
  have h12 : 12 ≤ (s.take 32).length := by simp; omega
  rw [List.take_add, List.take_add, List.append_assoc (List.take 32 s),
    List.drop_append_of_le_length h12, List.append_assoc]
theorem Validate_checksum_mem (fw : FwTable) (h : fw.table.Checksum ≠ fw.checksum) :
    Violation.checksum fw.checksum fw.table.Checksum ∈ fw.Validate := by
  unfold FwTable.Validate
  simp only []
  rw [if_pos h]
  simp

theorem Validate_checksum_not_mem (fw : FwTable) (h : fw.table.Checksum = fw.checksum)
    (a b : Nat) : Violation.checksum a b ∉ fw.Validate := by
  unfold FwTable.Validate
  simp only []
  rw [if_neg (by simpa using h)]
  have key : ∀ (l : List Nat) (ret : List Violation), Violation.checksum a b ∉ ret →
      Violation.checksum a b ∉
        l.foldl (fun ret v => if v ≠ 0 then ret ++ [Violation.reserved] else ret) ret := by
    intro l
    induction l with
    | nil => intro ret h; simpa using h
    | cons x xs ih =>
      intro ret h
      simp only [List.foldl_cons]
      apply ih
      split
      · simpa using h
      · exact h
  apply key
  split <;> simp

theorem written_stream_parts (fw fw1 : FwTable) (s : List Nat)
    (hc : fw.content.length = 32) (hpc : ∀ p ∈ fw.Parts, p.content.length = 48)
    (hsz : 32 + 48 * fw.Parts.length + 32 * fw.Fws.length < 4294967296 - 512)
    (hw : fw.WriteContent = .ok fw1) (he : fw1.Export bufferWriter [] = .ok s) :
    s.length = 32 + 48 * fw.Parts.length + 32 * fw.Fws.length
        + (512 - (32 + 48 * fw.Parts.length + 32 * fw.Fws.length) % 512)
    ∧ s.take 32 = fw1.content
    ∧ s.drop 32 = (fw1.Parts.map (fun p => p.content)).flatten
        ++ ((fw1.Fws.map (fun f => f.content)).flatten ++ List.replicate
              (512 - (32 + 48 * fw.Parts.length + 32 * fw.Fws.length) % 512) 0)
    ∧ (s.drop 32).take (48 * fw.Parts.length) = (fw1.Parts.map (fun p => p.content)).flatten
    ∧ (s.drop (32 + 48 * fw.Parts.length)).take (32 * fw.Fws.length)
        = (fw1.Fws.map (fun f => f.content)).flatten
    ∧ coveredBytes fw1
        = (s.take (32 + 48 * fw.Parts.length + 32 * fw.Fws.length)).drop 12 := by
  obtain ⟨hs, hl1, hPl, hFl, -⟩ := written_stream fw fw1 s hc hpc hsz hw he
  have h1 : s.length = 32 + 48 * fw.Parts.length + 32 * fw.Fws.length
        + (512 - (32 + 48 * fw.Parts.length + 32 * fw.Fws.length) % 512) := by
    rw [hs]; simp only [List.length_append, List.length_replicate, hl1, hPl, hFl]
  have h2 : s.take 32 = fw1.content := by
    rw [hs, List.append_assoc, List.append_assoc]; exact List.take_left' hl1
  have h3 : s.drop 32 = (fw1.Parts.map (fun p => p.content)).flatten
        ++ ((fw1.Fws.map (fun f => f.content)).flatten ++ List.replicate
              (512 - (32 + 48 * fw.Parts.length + 32 * fw.Fws.length) % 512) 0) := by
    rw [hs, List.append_assoc, List.append_assoc]; exact List.drop_left' hl1
  have h4 : (s.drop 32).take (48 * fw.Parts.length)
      = (fw1.Parts.map (fun p => p.content)).flatten := by
    rw [h3]; exact List.take_left' hPl
  have h5 : (s.drop (32 + 48 * fw.Parts.length)).take (32 * fw.Fws.length)
        = (fw1.Fws.map (fun f => f.content)).flatten := by
    rw [← List.drop_drop, h3, List.drop_left' hPl]; exact List.take_left' hFl
  refine ⟨h1, h2, h3, h4, h5, ?_⟩
  rw [← covered_of_stream s _ _ (by omega), h2, h4, h5]
  rfl

/-- C9 (amended): single-byte corruption inside the region the checksum
covers, outside the two length fields, is detected. For a table with a 32-byte
header buffer and 48-byte partition buffers, of total size below 2^32 - 512,
that `WriteContent` encodes and `Export` writes as `s`: replacing the byte at an
offset `i` with `12 ≤ i < 24` or `32 ≤ i < 32 + 48 p + 32 f` by a different byte
`v`, `New` decodes the altered stream and `Validate` reports a checksum violation. -/
theorem C9_corruption_detected_amended (fw fw1 : FwTable) (s : List Nat) (i v : Nat)
    (hc : fw.content.length = 32) (hpc : ∀ p ∈ fw.Parts, p.content.length = 48)
    (hsz : 32 + 48 * fw.Parts.length + 32 * fw.Fws.length < 4294967296 - 512)
    (hw : fw.WriteContent = .ok fw1) (he : fw1.Export bufferWriter [] = .ok s)
    (hi : (12 ≤ i ∧ i < 24)
      ∨ (32 ≤ i ∧ i < 32 + 48 * fw.Parts.length + 32 * fw.Fws.length))
    (hold : s.getD i 0 < 256) (hv : v < 256) (hne : v ≠ s.getD i 0) :
    ∃ fw2, New (s.set i v) = .ok fw2
      ∧ Violation.checksum fw2.checksum fw2.table.Checksum ∈ fw2.Validate := by
  obtain ⟨-, -, -, -, hdec, t1, t2, hck, -, -⟩ := written_stream fw fw1 s hc hpc hsz hw he
  obtain ⟨hlen, htake, -, -, -, hcov⟩ := written_stream_parts fw fw1 s hc hpc hsz hw he
  have hfield : ∀ o w, (o + w ≤ 12 ∨ 24 ≤ o) → o + w ≤ 32 →
      field ((s.set i v).take 32) o w = field fw1.content o w := by
    intro o w h1 h2
    rw [List.set_take, htake, field_set_outside]
    omega
  have hp2 : (FwTableHeader.ofBytes ((s.set i v).take 32)).PartListLen
      = 48 * fw.Parts.length := by
    rw [← t1, ← hdec]
    show leValue (field _ 24 4) = leValue (field _ 24 4)
    rw [hfield 24 4 (by omega) (by omega)]
  have hf2 : (FwTableHeader.ofBytes ((s.set i v).take 32)).FwListLen
      = 32 * fw.Fws.length := by
    rw [← t2, ← hdec]
    show leValue (field _ 28 4) = leValue (field _ 28 4)
    rw [hfield 28 4 (by omega) (by omega)]
  have hc2 : (FwTableHeader.ofBytes ((s.set i v).take 32)).Checksum = fw1.checksum := by
    rw [← hck, ← hdec]
    show leValue (field _ 8 4) = leValue (field _ 8 4)
    rw [hfield 8 4 (by omega) (by omega)]
  obtain ⟨fw2, hnew, hcont2, htab2, -, -, -, -, hP2, hF2⟩ :=
    New_stream (s.set i v) fw.Parts.length fw.Fws.length hp2 hf2
      (by rw [List.length_set]; omega)
  refine ⟨fw2, hnew, Validate_checksum_mem fw2 ?_⟩
  have hcov2 : coveredBytes fw2
      = ((s.take (32 + 48 * fw.Parts.length + 32 * fw.Fws.length)).drop 12).set (i - 12) v := by
    unfold coveredBytes
    rw [hcont2, hP2, hF2, covered_of_stream _ _ _ (by rw [List.length_set]; omega),
      List.set_take, List.drop_set, if_neg (by omega)]
  have hget : ((s.take (32 + 48 * fw.Parts.length + 32 * fw.Fws.length)).drop 12).getD
      (i - 12) 0 = s.getD i 0 := by
    simp only [List.getD_eq_getElem?_getD, List.getElem?_drop, List.getElem?_take]
    rw [if_pos (by omega), show 12 + (i - 12) = i by omega]
  have hsum := sum_set ((s.take (32 + 48 * fw.Parts.length + 32 * fw.Fws.length)).drop 12)
    (i - 12) v (by simp; omega)
  rw [hget] at hsum
  rw [htab2, hc2, checksum_eq_sum fw1, checksum_eq_sum fw2, hcov, hcov2]
  omega

set_option maxRecDepth 100000 in
theorem C9_corruption_detected_amended_witness :
    ∃ fw2, New (exStream.set 40 7) = .ok fw2
      ∧ Violation.checksum fw2.checksum fw2.table.Checksum ∈ fw2.Validate :=
  C9_corruption_detected_amended exTable exTableWritten exStream 40 7 rfl
    (by simp [exTable, exPart, PartEntry.ofContent]) (by decide) rfl rfl (by decide)
    (by decide) (by decide) (by decide)

set_option maxRecDepth 100000 in
/-- C9 (as stated, refuted): `exStream` is the stream `Export` writes for
`exTableWritten`. Replacing byte 0 (signature, `V`) by 0 gives a table that
`Validate` faults only for its signature; replacing byte 500 (padding, 0) by 1
gives a table with no violation at all; replacing byte 24 (low byte of
`PartListLen`, 48) by 47 makes `New` fail, so there is no table to validate. -/
theorem C9_corruption_counterexample :
    exTable.WriteContent = .ok exTableWritten
    ∧ exTableWritten.Export bufferWriter [] = .ok exStream
    ∧ exStream.getD 0 0 = 86 ∧ exStream.getD 500 0 = 0 ∧ exStream.getD 24 0 = 48
    ∧ (∃ fw2, New (exStream.set 0 0) = .ok fw2
        ∧ fw2.Validate = [Violation.signature [0, 69, 82, 79, 78, 65, 95, 95]])
    ∧ (∃ fw2, New (exStream.set 500 1) = .ok fw2 ∧ fw2.Validate = [])
    ∧ New (exStream.set 24 47) = .error (.partsNotAligned 47) :=
  ⟨rfl, rfl, rfl, rfl, rfl, ⟨_, rfl, rfl⟩, ⟨_, rfl, rfl⟩, rfl⟩

/-! ## The table round trip -/

theorem PartEntry_WriteContent_ok (p : PartEntry) (h1 : p.Typ ∈ partTypes)
    (h2 : p.FwType ∈ partFileSystemTypes) (h3 : p.MountPoint.length ≤ 32) :
    ∃ p1, p.WriteContent = .ok p1 := by
  obtain ⟨i, hi⟩ := typeCode_of_mem p.Typ partTypes 0 h1
  obtain ⟨j, hj⟩ := typeCode_of_mem p.FwType partFileSystemTypes 0 h2
  unfold PartEntry.WriteContent
  simp only [hi, hj, if_neg (show ¬ p.MountPoint.length > 32 by omega)]
  exact ⟨_, rfl⟩

theorem writeParts_ok (ps : List PartEntry) (i : Nat) (h : ∀ p ∈ ps, p.WellFormed) :
    ∃ ps1, writeParts ps i = .ok ps1 := by
  induction ps generalizing i with
  | nil => exact ⟨[], rfl⟩
  | cons p ps ih =>
    obtain ⟨h1, h2, h3, -⟩ := h p (List.mem_cons_self _ _)
    obtain ⟨p1, hp1⟩ := PartEntry_WriteContent_ok p h1 h2 (by omega)
    obtain ⟨ps1, hps1⟩ := ih (i + 1) (fun q hq => h q (List.mem_cons_of_mem _ hq))
    exact ⟨p1 :: ps1, by simp only [writeParts, hp1, hps1]⟩

theorem writeFws_ok (fs : List FwEntry) (i : Nat) (h : ∀ f ∈ fs, f.WellFormed) :
    ∃ fs1, writeFws fs i = .ok fs1 := by
  induction fs generalizing i with
  | nil => exact ⟨[], rfl⟩
  | cons f fs ih =>
    obtain ⟨f1, hf1, -⟩ := FwEntry_WriteContent_ok f (h f (List.mem_cons_self _ _)).1
    obtain ⟨fs1, hfs1⟩ := ih (i + 1) (fun q hq => h q (List.mem_cons_of_mem _ hq))
    exact ⟨f1 :: fs1, by simp only [writeFws, hf1, hfs1]⟩

theorem FwTable_WriteContent_ok (fw : FwTable) (hs : 8 ≤ fw.Signature.length)
    (hp : ∀ p ∈ fw.Parts, p.WellFormed) (hf : ∀ f ∈ fw.Fws, f.WellFormed) :
    ∃ fw1, fw.WriteContent = .ok fw1 := by
  obtain ⟨ps1, hps1⟩ := writeParts_ok fw.Parts 0 hp
  obtain ⟨fs1, hfs1⟩ := writeFws_ok fw.Fws 0 hf
  unfold FwTable.WriteContent
  simp only [if_neg (show ¬ fw.Signature.length < 8 by omega), hps1, hfs1]
  exact ⟨_, rfl⟩

theorem readParts_written (ps ps1 : List PartEntry) (i j : Nat) (rest : List Nat)
    (hw : writeParts ps i = .ok ps1) (hwf : ∀ p ∈ ps, p.WellFormed) :
    ∃ ds, readParts ps.length j ((ps1.map (fun p => p.content)).flatten ++ rest)
        = .ok (ds, rest) ∧ List.Forall₂ PartEntry.agrees ps ds := by
  induction ps generalizing i j ps1 with
  | nil =>
    simp [writeParts] at hw; subst hw
    exact ⟨[], by simp [readParts], List.Forall₂.nil⟩
  | cons p ps ih =>
    unfold writeParts at hw
    split at hw
    · cases hw
    · next p1 hp1 =>
      split at hw
      · cases hw
      · next ps2 h2 =>
        injection hw with hw; subst hw
        obtain ⟨-, -, -, h48, hF0, hF1, hL⟩ := hwf p (List.mem_cons_self _ _)
        obtain ⟨hl1, d, hd, a1, a2, a3, a4, a5, a6, -⟩ :=
          PartEntry_decode_encode p p1 (PartEntry.ofContent p1.content) h48 hp1 rfl
            ⟨hF0, hF1⟩ hL
        obtain ⟨ds, hds, hall⟩ := ih ps2 (i + 1) (j + 1) h2
          (fun q hq => hwf q (List.mem_cons_of_mem _ hq))
        refine ⟨d :: ds, ?_, List.Forall₂.cons ⟨a1, a3, a4, a5, a2, a6⟩ hall⟩
        simp only [List.map_cons, List.flatten_cons, List.append_assoc, List.length_cons]
        unfold readParts
        rw [readInto_full _ partEntrySize (by decide) (by simp [partEntrySize, hl1]),
          List.take_left' (by simp [partEntrySize, hl1]),
          List.drop_left' (by simp [partEntrySize, hl1])]
        simp only [hd, hds]

theorem readFws_written (fs fs1 : List FwEntry) (i j : Nat) (rest : List Nat)
    (hw : writeFws fs i = .ok fs1) (hwf : ∀ f ∈ fs, f.WellFormed) :
    ∃ ds, readFws fs.length j ((fs1.map (fun f => f.content)).flatten ++ rest)
        = .ok (ds, rest) ∧ List.Forall₂ FwEntry.agrees fs ds := by
  induction fs generalizing i j fs1 with
  | nil =>
    simp [writeFws] at hw; subst hw
    exact ⟨[], by simp [readFws], List.Forall₂.nil⟩
  | cons f fs ih =>
    unfold writeFws at hw
    split at hw
    · cases hw
    · next f1 hf1 =>
      split at hw
      · cases hw
      · next fs2 h2 =>
        injection hw with hw; subst hw
        obtain ⟨-, hV, hL, hP, hD, hT, hC⟩ := hwf f (List.mem_cons_self _ _)
        have hl1 := FwEntry_WriteContent_length f f1 hf1
        obtain ⟨d, hd, hagree⟩ :=
          FwEntry_decode_encode f f1 (FwEntry.ofContent f1.content) hf1 rfl hV hL hP hD hT hC
        obtain ⟨ds, hds, hall⟩ := ih fs2 (i + 1) (j + 1) h2
          (fun q hq => hwf q (List.mem_cons_of_mem _ hq))
        refine ⟨d :: ds, ?_, List.Forall₂.cons hagree hall⟩
        simp only [List.map_cons, List.flatten_cons, List.append_assoc, List.length_cons]
        unfold readFws
        rw [readInto_full _ fwEntrySize (by decide) (by simp [fwEntrySize, hl1]),
          List.take_left' (by simp [fwEntrySize, hl1]),
          List.drop_left' (by simp [fwEntrySize, hl1])]
        simp only [hd, hds]

/-- C2 (amended): table round trip. For a table with a signature of 8 bytes, a
version in 0..255, the 32-byte header buffer and 48-byte partition buffers that
`New` creates, known type names, mount points of at most 31 bytes, numeric
fields within their on-disk widths and a total size below 2^32 - 512:
`WriteContent` succeeds, `Export` writes a stream, and `New` decodes from it a
table with the same signature and version and, entry by entry in the same
order, the same partition fields (type, readOnly, length, fwCount,
filesystemType, and the mount point followed by zero bytes up to 32 bytes) and
the same firmware fields (type, flags, version, targetAddress, diskOffset,
length, paddings, checksum). -/
theorem C2_table_roundtrip_amended (fw : FwTable) (hc : fw.content.length = 32)
    (hsig : fw.Signature.length = 8) (hver : 0 ≤ fw.Version ∧ fw.Version < 256)
    (hsz : 32 + 48 * fw.Parts.length + 32 * fw.Fws.length < 4294967296 - 512)
    (hparts : ∀ p ∈ fw.Parts, p.WellFormed) (hfws : ∀ f ∈ fw.Fws, f.WellFormed) :
    ∃ fw1 s fw2, fw.WriteContent = .ok fw1 ∧ fw1.Export bufferWriter [] = .ok s
      ∧ New s = .ok fw2 ∧ fw2.Signature = fw.Signature ∧ fw2.Version = fw.Version
      ∧ List.Forall₂ PartEntry.agrees fw.Parts fw2.Parts
      ∧ List.Forall₂ FwEntry.agrees fw.Fws fw2.Fws := by
  obtain ⟨fw1, hw⟩ := FwTable_WriteContent_ok fw (by omega) hparts hfws
  have hpc : ∀ p ∈ fw.Parts, p.content.length = 48 := fun p hp => (hparts p hp).2.2.2.1
  obtain ⟨he, -⟩ := written_export fw fw1 hc hpc hsz hw
  obtain ⟨-, hl1, hPl, hFl, hdec, t1, t2, -, t4, t5⟩ := written_stream fw fw1 _ hc hpc hsz hw he
  obtain ⟨hlen, htake, hdrop, -⟩ := written_stream_parts fw fw1 _ hc hpc hsz hw he
  obtain ⟨-, parts, fws, hwp, hwf, hP, hF, -⟩ := WriteContent_ok_iff fw fw1 hw
  obtain ⟨ds, hds, hagp⟩ := readParts_written fw.Parts parts 0 0
    ((fw1.Fws.map (fun f => f.content)).flatten ++ List.replicate
      (512 - (32 + 48 * fw.Parts.length + 32 * fw.Fws.length) % 512) 0) hwp hparts
  obtain ⟨es, hes, hagf⟩ := readFws_written fw.Fws fws 0 0
    (List.replicate (512 - (32 + 48 * fw.Parts.length + 32 * fw.Fws.length) % 512) 0)
    hwf hfws
  rw [← hP, ← hdrop] at hds
  rw [← hF] at hes
  obtain ⟨fw2, hnew, hP2, hF2, -, ht2, hs2, hv2⟩ :=
    New_of_reads _ fw.Parts.length fw.Fws.length ds es _ _ (by omega)
      (by rw [htake, hdec, t1]) (by rw [htake, hdec, t2]) hds hes
  refine ⟨fw1, _, fw2, hw, he, hnew, ?_, ?_, by rw [hP2]; exact hagp, by rw [hF2]; exact hagf⟩
  · rw [hs2, ht2, htake, hdec, t4, List.take_of_length_le (by omega)]
  · rw [hv2, ht2, htake, hdec, t5]
    unfold toUint8; omega

set_option maxRecDepth 100000 in
theorem C2_table_roundtrip_amended_witness :
    ∃ fw1 s fw2, exTable.WriteContent = .ok fw1 ∧ fw1.Export bufferWriter [] = .ok s
      ∧ New s = .ok fw2 ∧ fw2.Signature = exTable.Signature ∧ fw2.Version = exTable.Version
      ∧ List.Forall₂ PartEntry.agrees exTable.Parts fw2.Parts
      ∧ List.Forall₂ FwEntry.agrees exTable.Fws fw2.Fws :=
  C2_table_roundtrip_amended exTable rfl rfl (by decide) (by decide)
    (by simp [exTable, exPart, PartEntry.WellFormed, PartEntry.ofContent, partTypes,
      partFileSystemTypes])
    (by simp [exTable, exFw, FwEntry.WellFormed, FwEntry.ofContent, FwTypes])

set_option maxRecDepth 100000 in
/-- C2 (as stated, refuted): `exTable` is well formed in the sense of the claim
(8-byte signature, known type names, the 1-byte mount point "/", all numeric
fields within their widths, `EmmcPartID = 1`); after `WriteContent`, `Export`
and `New` its partition comes back with a 32-byte mount point and
`EmmcPartID = 0`. -/
theorem C2_table_roundtrip_counterexample :
    exTable.WriteContent = .ok exTableWritten
    ∧ exTableWritten.Export bufferWriter [] = .ok exStream
    ∧ New exStream = .ok exDecoded
    ∧ exTable.Parts.map (fun p => (p.MountPoint, p.EmmcPartID)) = [([47], 1)]
    ∧ exDecoded.Parts.map (fun p => (p.MountPoint, p.EmmcPartID))
        = [(47 :: List.replicate 31 0, 0)] :=
  ⟨rfl, rfl, rfl, rfl, rfl⟩

/-! ## The payload scan never reports an error -/

theorem readFileLoop_error (r : List ReadEvent) (cs : Nat) (size : Int) (err : Option Err) :
    (readFileLoop r cs size err).2.2 = err
      ∧ (readFileLoop r cs size err).2.1 = size + (r.length : Int) := by
  induction r generalizing cs size with
  | nil => simp [readFileLoop]
  | cons ev r ih =>
    cases ev with
    | byte b =>
      simp only [readFileLoop, List.length_cons]
      refine ⟨(ih _ _).1, ?_⟩
      rw [(ih _ _).2]; push_cast; ring
    | fault b =>
      simp only [readFileLoop, List.length_cons]
      refine ⟨(ih _ _).1, ?_⟩
      rw [(ih _ _).2]; push_cast; ring

theorem ReadFile_never_fails (fw : FwEntry) (r : List ReadEvent) :
    ∃ fw1, fw.ReadFile r = .ok fw1 ∧ fw1.Length = (r.length : Int) := by
  obtain ⟨h1, h2⟩ := readFileLoop_error r 0 0 none
  unfold FwEntry.ReadFile
  rcases h : readFileLoop r 0 0 none with ⟨cs, size, err⟩
  rw [h] at h1 h2
  simp only at h1 h2
  subst h1
  exact ⟨_, rfl, by simpa using h2⟩

/-! ## The checksum function and the checks of Validate -/

/-- C13: for every byte sequence and every 32-bit seed, `calculateChecksum` is
the seed plus the sum of the bytes, modulo 2^32; hence the checksum of a
concatenation is the checksum of the second part seeded with that of the
first, and the result is the same for every permutation of the bytes. -/
theorem C13_calculateChecksum_sum (bs : List Nat) (s : Nat) (hs : s < 4294967296) :
    calculateChecksum bs s = (s + bs.sum) % 4294967296
    ∧ (∀ a b : List Nat, calculateChecksum (a ++ b) s
        = calculateChecksum b (calculateChecksum a s))
    ∧ (∀ bs2 : List Nat, bs.Perm bs2 → calculateChecksum bs2 s = calculateChecksum bs s) := by
  refine ⟨calculateChecksum_eq bs s hs, ?_, ?_⟩
  · intro a b
    unfold calculateChecksum
    rw [List.foldl_append]
  · intro bs2 hp
    rw [calculateChecksum_eq bs2 s hs, calculateChecksum_eq bs s hs, hp.sum_eq]

theorem C13_calculateChecksum_sum_witness :
    calculateChecksum [255, 1, 7] 4294967295 = (4294967295 + [255, 1, 7].sum) % 4294967296
    ∧ (∀ a b : List Nat, calculateChecksum (a ++ b) 4294967295
        = calculateChecksum b (calculateChecksum a 4294967295))
    ∧ (∀ bs2 : List Nat, [255, 1, 7].Perm bs2
        → calculateChecksum bs2 4294967295 = calculateChecksum [255, 1, 7] 4294967295) :=
  C13_calculateChecksum_sum [255, 1, 7] 4294967295 (by decide)

theorem reserved_foldl (l : List Nat) (ret : List Violation) :
    l.foldl (fun ret v => if v ≠ 0 then ret ++ [Violation.reserved] else ret) ret
      = ret ++ List.replicate (l.countP (fun v => decide (v ≠ 0))) Violation.reserved := by
  induction l generalizing ret with
  | nil => simp
  | cons x xs ih =>
    simp only [List.foldl_cons]
    rw [ih]
    by_cases hx : x = 0
    · simp [hx]
    · simp [hx, List.countP_cons, List.replicate_succ]

theorem Validate_eq (fw : FwTable) :
    fw.Validate
      = (if fw.Signature ≠ signatureVERONA then [Violation.signature fw.Signature] else [])
        ++ List.replicate (fw.table.Reserved.countP (fun v => decide (v ≠ 0)))
            Violation.reserved
        ++ (if fw.table.Checksum ≠ fw.checksum
            then [Violation.checksum fw.checksum fw.table.Checksum] else []) := by
  unfold FwTable.Validate
  simp only [reserved_foldl, List.nil_append]
  by_cases h1 : fw.Signature = signatureVERONA <;>
    by_cases h2 : fw.table.Checksum = fw.checksum <;> simp [h1, h2]

/-- C15: `Validate` returns the empty result exactly when the signature is
"VERONA__", every reserved header byte is zero and the stored checksum equals
the recomputed one; and each check that fails puts its own error in the
result whatever the other two do: a signature error iff the signature
differs, a reserved-field error iff some reserved byte is not zero, a checksum
error iff the checksums differ. -/
theorem C15_Validate_checks (fw : FwTable) :
    (fw.Validate = [] ↔
      fw.Signature = signatureVERONA ∧ (∀ v ∈ fw.table.Reserved, v = 0)
        ∧ fw.table.Checksum = fw.checksum)
    ∧ (Violation.signature fw.Signature ∈ fw.Validate ↔ fw.Signature ≠ signatureVERONA)
    ∧ (Violation.reserved ∈ fw.Validate ↔ ∃ v ∈ fw.table.Reserved, v ≠ 0)
    ∧ (Violation.checksum fw.checksum fw.table.Checksum ∈ fw.Validate
        ↔ fw.table.Checksum ≠ fw.checksum) := by
  have hcount : fw.table.Reserved.countP (fun v => decide (v ≠ 0)) = 0
      ↔ ∀ v ∈ fw.table.Reserved, v = 0 := by
    rw [List.countP_eq_zero]; simp
  have hpos : 0 < fw.table.Reserved.countP (fun v => decide (v ≠ 0))
      ↔ ∃ v ∈ fw.table.Reserved, v ≠ 0 := by
    rw [List.countP_pos_iff]; simp
  rw [Validate_eq]
  refine ⟨?_, ?_, ?_, ?_⟩
  · simp only [List.append_eq_nil, List.replicate_eq_nil_iff, hcount]
    by_cases h1 : fw.Signature = signatureVERONA <;>
      by_cases h2 : fw.table.Checksum = fw.checksum <;> simp [h1, h2]
  · by_cases h1 : fw.Signature = signatureVERONA <;>
      by_cases h2 : fw.table.Checksum = fw.checksum <;>
      simp [h1, h2, List.mem_replicate]
  · rw [← hpos]
    by_cases h1 : fw.Signature = signatureVERONA <;>
      by_cases h2 : fw.table.Checksum = fw.checksum <;>
      simp [h1, h2, List.mem_replicate, Nat.pos_iff_ne_zero]
  · by_cases h1 : fw.Signature = signatureVERONA <;>
      by_cases h2 : fw.table.Checksum = fw.checksum <;>
      simp [h1, h2, List.mem_replicate]

/-! ## The layout of a firmware entry -/

theorem leBytes_four (x : Nat) : leBytes 4 x = le32 (x % 4294967296) := by
  simp only [leBytes, le32, List.cons.injEq, and_true]
  refine ⟨?_, ?_, ?_, ?_⟩ <;> omega

theorem typeCode_indexOf (t : String) (names : List String) (k : Nat) (h : t ∈ names) :
    typeCode t names k = some (k + names.indexOf t) := by
  induction names generalizing k with
  | nil => simp at h
  | cons v vs ih =>
    unfold typeCode
    by_cases hv : t = v
    · subst hv; simp
    · rw [if_neg hv]
      rcases List.mem_cons.mp h with h | h
      · exact absurd h hv
      · rw [ih (k + 1) h, List.indexOf_cons_ne _ (Ne.symm hv)]
        congr 1; omega

theorem options_bits (lzma ro : Bool) (k : Nat) :
    let o := (if ro then (if lzma then 0 ||| 64 else 0) ||| 128
              else (if lzma then 0 ||| 64 else 0))
    o = (if lzma then 64 else 0) + (if ro then 128 else 0)
      ∧ o.testBit 6 = lzma ∧ o.testBit 7 = ro
      ∧ (k ≠ 6 → k ≠ 7 → o.testBit k = false) := by
  have hbig : ∀ o : Nat, o < 256 → 8 ≤ k → o.testBit k = false := by
    intro o ho hk
    apply Nat.testBit_lt_two_pow
    calc o < 2 ^ 8 := ho
      _ ≤ 2 ^ k := Nat.pow_le_pow_right (by decide) hk
  cases lzma <;> cases ro <;> refine ⟨by decide, by decide, by decide, ?_⟩ <;>
    intro h6 h7 <;> by_cases hk : k < 8
  all_goals first
    | (interval_cases k <;> first | decide | exact absurd rfl h6 | exact absurd rfl h7)
    | exact hbig _ (by decide) (by omega)

theorem toUint32_lt (x : Int) : toUint32 x < 4294967296 := by
  unfold toUint32; omega

/-- C14: the binary layout of a firmware entry. For an entry with a known
type, `WriteContent` produces exactly 32 bytes: byte 0 is the index of the type
in `FwTypes`; byte 1 is the options byte, with bit 6 set iff `Lzma`, bit 7 set
iff `ReadOnly` and every other bit zero; bytes 2..25 are the little-endian
32-bit values of `Version`, `TargetAddress`, `DiskOffset`, `Length`, `Paddings`
and `Checksum`, each reduced modulo 2^32; bytes 26..31 are zero. -/
theorem C14_FwEntry_layout (e : FwEntry) (hty : e.Typ ∈ FwTypes) :
    ∃ e1 o, e.WriteContent = .ok e1 ∧ e1.content.length = 32
      ∧ e1.content =
          [FwTypes.indexOf e.Typ, o]
            ++ le32 (toUint32 e.Version) ++ le32 (e.TargetAddress % 4294967296)
            ++ le32 (toUint32 e.DiskOffset) ++ le32 (toUint32 e.Length)
            ++ le32 (toUint32 e.Paddings) ++ le32 (e.Checksum % 4294967296)
            ++ [0, 0, 0, 0, 0, 0]
      ∧ FwTypes.indexOf e.Typ < 47 ∧ FwTypes.getD (FwTypes.indexOf e.Typ) "" = e.Typ
      ∧ o = (if e.Lzma then 64 else 0) + (if e.ReadOnly then 128 else 0)
      ∧ o.testBit 6 = e.Lzma ∧ o.testBit 7 = e.ReadOnly
      ∧ (∀ k : Nat, k ≠ 6 → k ≠ 7 → o.testBit k = false) := by
  have hi := typeCode_indexOf e.Typ FwTypes 0 hty
  rw [Nat.zero_add] at hi
  obtain ⟨-, hlt, hget⟩ := typeCode_some _ _ _ _ hi
  have h47 : FwTypes.length = 47 := rfl
  rw [Nat.zero_add, h47] at hlt
  obtain ⟨ho, h6, h7, -⟩ := options_bits e.Lzma e.ReadOnly 0
  have hk := fun k => (options_bits e.Lzma e.ReadOnly k).2.2.2
  refine ⟨_, _, by unfold FwEntry.WriteContent; rw [hi], ?_, ?_, hlt, by simpa using hget,
    ho, h6, h7, hk⟩
  · simp [FwEntryTable.bytes, leBytes_length]
  · have hopt : (if e.ReadOnly then (if e.Lzma then 0 ||| 64 else 0) ||| 128
        else (if e.Lzma then 0 ||| 64 else 0)) % 256
        = (if e.ReadOnly then (if e.Lzma then 0 ||| 64 else 0) ||| 128
        else (if e.Lzma then 0 ||| 64 else 0)) := by
      cases e.Lzma <;> cases e.ReadOnly <;> rfl
    simp only [FwEntryTable.bytes, leBytes_four, Nat.mod_eq_of_lt (toUint32_lt _)]
    simp only [leBytes, hopt, Nat.mod_mod, Nat.mod_eq_of_lt (show FwTypes.indexOf e.Typ < 256 by omega),
      List.replicate, List.cons_append, List.nil_append, List.append_assoc]

theorem C14_FwEntry_layout_witness :
    ∃ e1 o, exFw.WriteContent = .ok e1 ∧ e1.content.length = 32
      ∧ e1.content =
          [FwTypes.indexOf exFw.Typ, o]
            ++ le32 (toUint32 exFw.Version) ++ le32 (exFw.TargetAddress % 4294967296)
            ++ le32 (toUint32 exFw.DiskOffset) ++ le32 (toUint32 exFw.Length)
            ++ le32 (toUint32 exFw.Paddings) ++ le32 (exFw.Checksum % 4294967296)
            ++ [0, 0, 0, 0, 0, 0]
      ∧ FwTypes.indexOf exFw.Typ < 47 ∧ FwTypes.getD (FwTypes.indexOf exFw.Typ) "" = exFw.Typ
      ∧ o = (if exFw.Lzma then 64 else 0) + (if exFw.ReadOnly then 128 else 0)
      ∧ o.testBit 6 = exFw.Lzma ∧ o.testBit 7 = exFw.ReadOnly
      ∧ (∀ k : Nat, k ≠ 6 → k ≠ 7 → o.testBit k = false) :=
  C14_FwEntry_layout exFw (by decide)

/-! ## Errors of encoding -/

theorem FwEntry_WriteContent_error_iff (e : FwEntry) :
    (∃ err, e.WriteContent = .error err) ↔ e.Typ ∉ FwTypes := by
  constructor
  · rintro ⟨err, h⟩ hmem
    obtain ⟨e1, h1, -⟩ := FwEntry_WriteContent_ok e hmem
    rw [h1] at h; cases h
  · intro hn
    cases hi : typeCode e.Typ FwTypes 0 with
    | none => exact ⟨.invalidType e.Typ, by unfold FwEntry.WriteContent; rw [hi]⟩
    | some i => exact absurd (by
        have := (typeCode_some _ _ _ _ hi).2.2
        have hlt := (typeCode_some _ _ _ _ hi).2.1
        rw [← this]
        rw [List.getD_eq_getElem _ _ (by omega)]
        exact List.getElem_mem _) hn

theorem writeParts_error (l1 l2 : List PartEntry) (p : PartEntry) (err : Err) (i : Nat)
    (hok : ∀ q ∈ l1, ∃ q1, q.WriteContent = .ok q1) (hp : p.WriteContent = .error err) :
    writeParts (l1 ++ p :: l2) i = .error (.part (i + l1.length + 1) err) := by
  induction l1 generalizing i with
  | nil => simp [writeParts, hp]
  | cons q l1 ih =>
    obtain ⟨q1, hq1⟩ := hok q (List.mem_cons_self _ _)
    have ih1 := ih (i + 1) (fun x hx => hok x (List.mem_cons_of_mem _ hx))
    simp only [List.cons_append, writeParts, hq1, List.length_cons, List.append_eq, ih1,
      Except.error.injEq, Err.part.injEq, and_true]
    omega

theorem writeFws_error (l1 l2 : List FwEntry) (f : FwEntry) (err : Err) (i : Nat)
    (hok : ∀ q ∈ l1, ∃ q1, q.WriteContent = .ok q1) (hf : f.WriteContent = .error err) :
    writeFws (l1 ++ f :: l2) i = .error (.firmware (i + l1.length + 1) err) := by
  induction l1 generalizing i with
  | nil => simp [writeFws, hf]
  | cons q l1 ih =>
    obtain ⟨q1, hq1⟩ := hok q (List.mem_cons_self _ _)
    have ih1 := ih (i + 1) (fun x hx => hok x (List.mem_cons_of_mem _ hx))
    simp only [List.cons_append, writeFws, hq1, List.length_cons, List.append_eq, ih1,
      Except.error.injEq, Err.firmware.injEq, and_true]
    omega

theorem writeParts_all_ok (ps : List PartEntry) (i : Nat)
    (h : ∀ p ∈ ps, ∃ p1, p.WriteContent = .ok p1) : ∃ ps1, writeParts ps i = .ok ps1 := by
  induction ps generalizing i with
  | nil => exact ⟨[], rfl⟩
  | cons p ps ih =>
    obtain ⟨p1, hp1⟩ := h p (List.mem_cons_self _ _)
    obtain ⟨ps1, hps1⟩ := ih (i + 1) (fun q hq => h q (List.mem_cons_of_mem _ hq))
    exact ⟨p1 :: ps1, by simp only [writeParts, hp1, hps1]⟩

theorem writeParts_ok_inv (ps ps1 : List PartEntry) (i : Nat) (h : writeParts ps i = .ok ps1) :
    ∀ p ∈ ps, ∃ p1, p.WriteContent = .ok p1 := by
  induction ps generalizing i ps1 with
  | nil => simp
  | cons p ps ih =>
    unfold writeParts at h
    split at h
    · cases h
    · next p1 hp1 =>
      split at h
      · cases h
      · next ps2 h2 =>
        intro q hq
        rcases List.mem_cons.mp hq with rfl | hq
        · exact ⟨p1, hp1⟩
        · exact ih _ _ h2 q hq

theorem writeFws_ok_inv (fs fs1 : List FwEntry) (i : Nat) (h : writeFws fs i = .ok fs1) :
    ∀ f ∈ fs, ∃ f1, f.WriteContent = .ok f1 := by
  induction fs generalizing i fs1 with
  | nil => simp
  | cons f fs ih =>
    unfold writeFws at h
    split at h
    · cases h
    · next f1 hf1 =>
      split at h
      · cases h
      · next fs2 h2 =>
        intro q hq
        rcases List.mem_cons.mp hq with rfl | hq
        · exact ⟨f1, hf1⟩
        · exact ih _ _ h2 q hq

/-- C19: `FwEntry.WriteContent` returns an error exactly when the type is not
one of the names of `FwTypes`. `FwTable.WriteContent` (on a table whose
signature has its 8 bytes) returns no table when some partition or firmware
entry fails to encode, and its error is that of the first failing entry,
partitions first and then firmwares, tagged with the 1-based index and kind. -/
theorem C19_WriteContent_errors :
    (∀ e : FwEntry, (∃ err, e.WriteContent = .error err) ↔ e.Typ ∉ FwTypes)
    ∧ (∀ (fw : FwTable) (l1 l2 : List PartEntry) (p : PartEntry) (err : Err),
        8 ≤ fw.Signature.length → fw.Parts = l1 ++ p :: l2 →
        (∀ q ∈ l1, ∃ q1, q.WriteContent = .ok q1) → p.WriteContent = .error err →
        fw.WriteContent = .error (.part (l1.length + 1) err))
    ∧ (∀ (fw : FwTable) (l1 l2 : List FwEntry) (f : FwEntry) (err : Err),
        8 ≤ fw.Signature.length → (∀ p ∈ fw.Parts, ∃ p1, p.WriteContent = .ok p1) →
        fw.Fws = l1 ++ f :: l2 →
        (∀ g ∈ l1, ∃ g1, g.WriteContent = .ok g1) → f.WriteContent = .error err →
        fw.WriteContent = .error (.firmware (l1.length + 1) err))
    ∧ (∀ (fw fw1 : FwTable), fw.WriteContent = .ok fw1 →
        (∀ p ∈ fw.Parts, ∃ p1, p.WriteContent = .ok p1)
        ∧ (∀ f ∈ fw.Fws, ∃ f1, f.WriteContent = .ok f1)) := by
  refine ⟨FwEntry_WriteContent_error_iff, ?_, ?_, ?_⟩
  · intro fw l1 l2 p err hs hP hok hp
    have h := writeParts_error l1 l2 p err 0 hok hp
    rw [← hP, Nat.zero_add] at h
    unfold FwTable.WriteContent
    simp only [if_neg (show ¬ fw.Signature.length < 8 by omega), h]
  · intro fw l1 l2 f err hs hparts hF hok hf
    obtain ⟨ps1, hps1⟩ := writeParts_all_ok fw.Parts 0 hparts
    have h := writeFws_error l1 l2 f err 0 hok hf
    rw [← hF, Nat.zero_add] at h
    unfold FwTable.WriteContent
    simp only [if_neg (show ¬ fw.Signature.length < 8 by omega), hps1, h]
  · intro fw fw1 h
    obtain ⟨-, parts, fws, hp, hf, -⟩ := WriteContent_ok_iff fw fw1 h
    exact ⟨writeParts_ok_inv _ _ _ hp, writeFws_ok_inv _ _ _ hf⟩

theorem C19_WriteContent_errors_witness :
    ((∃ err, exFwBogus.WriteContent = .error err) ↔ exFwBogus.Typ ∉ FwTypes)
    ∧ tableBogus.WriteContent = .error (.firmware 2 (.invalidType "Bogus")) :=
  ⟨C19_WriteContent_errors.1 exFwBogus,
   C19_WriteContent_errors.2.2.1 tableBogus [exFw] [] exFwBogus (.invalidType "Bogus")
     (by decide) (by simp [tableBogus, exTable, exPart, PartEntry.WriteContent, typeCode,
        partTypes, partFileSystemTypes, PartEntry.ofContent]) rfl
     (by simp [exFw, FwEntry.WriteContent, typeCode, FwTypes, FwEntry.ofContent]) rfl⟩

/-! ## Removing and adding firmware entries -/

theorem findFwIndex_none (t : String) (fs : List FwEntry) (k : Nat) :
    findFwIndex t fs k = none ↔ ∀ f ∈ fs, f.Typ ≠ t := by
  induction fs generalizing k with
  | nil => simp [findFwIndex]
  | cons f fs ih =>
    unfold findFwIndex
    by_cases hf : f.Typ = t
    · simp [hf]
    · simp [hf, ih]

theorem findFwIndex_first (t : String) (l1 l2 : List FwEntry) (f : FwEntry) (k : Nat)
    (hf : f.Typ = t) (h1 : ∀ g ∈ l1, g.Typ ≠ t) :
    findFwIndex t (l1 ++ f :: l2) k = some (k + l1.length) := by
  induction l1 generalizing k with
  | nil => simp [findFwIndex, hf]
  | cons g l1 ih =>
    have hg : g.Typ ≠ t := h1 g (List.mem_cons_self _ _)
    have ih1 := ih (k + 1) (fun x hx => h1 x (List.mem_cons_of_mem _ hx))
    simp only [List.cons_append, findFwIndex, if_neg hg, List.append_eq, ih1, List.length_cons,
      Option.some.injEq]
    omega

theorem exists_first {α : Type} (P : α → Prop) (l : List α) (h : ∃ x ∈ l, P x) :
    ∃ l1 x l2, l = l1 ++ x :: l2 ∧ P x ∧ ∀ y ∈ l1, ¬ P y := by
  induction l with
  | nil => simp at h
  | cons a l ih =>
    by_cases ha : P a
    · exact ⟨[], a, l, rfl, ha, by simp⟩
    · obtain ⟨x, hx, hPx⟩ := h
      rcases List.mem_cons.mp hx with rfl | hx
      · exact absurd hPx ha
      · obtain ⟨l1, y, l2, hl, hy, hl1⟩ := ih ⟨x, hx, hPx⟩
        refine ⟨a :: l1, y, l2, by rw [hl]; rfl, hy, ?_⟩
        intro z hz
        rcases List.mem_cons.mp hz with rfl | hz
        · exact ha
        · exact hl1 z hz

theorem shiftRemove_middle {α : Type} (l1 l2 : List α) (x : α) :
    shiftRemove (l1 ++ x :: l2) l1.length = .ok (l1 ++ l2) := by
  unfold shiftRemove
  rw [if_neg (by simp)]
  have h1 : (l1 ++ x :: l2).take l1.length = l1 := List.take_left' rfl
  have h2 : (l1 ++ x :: l2).drop l1.length = x :: l2 := List.drop_left' rfl
  have h3 : (l1 ++ x :: l2).drop (l1.length + 1) = l2 := by
    rw [← List.drop_drop, h2]; rfl
  rw [h1, h2, h3]
  unfold goCopy
  have h4 : l2.take (x :: l2).length = l2 := List.take_of_length_le (by simp)
  have h5 : ((x :: l2).drop l2.length).length = 1 := by simp
  obtain ⟨y, hy⟩ := List.length_eq_one.mp h5
  rw [h4, hy, ← List.append_assoc, List.dropLast_concat]

/-- C18: `firmwareRemove` by type name. It fails when no entry has the type;
otherwise the first entry of that type is removed and every other entry stays,
in the original order, so the list is one shorter (and a list of one entry
becomes empty). -/
theorem C18_firmwareRemove (fw : FwTable) (t : String) :
    ((∀ f ∈ fw.Fws, f.Typ ≠ t) → firmwareRemove fw t = .error (.notFound t))
    ∧ ((∃ f ∈ fw.Fws, f.Typ = t) →
        ∃ l1 f l2, fw.Fws = l1 ++ f :: l2 ∧ f.Typ = t ∧ (∀ g ∈ l1, g.Typ ≠ t)
          ∧ firmwareRemove fw t = .ok { fw with Fws := l1 ++ l2 }
          ∧ (l1 ++ l2).length + 1 = fw.Fws.length) := by
  constructor
  · intro h
    unfold firmwareRemove
    rw [(findFwIndex_none t fw.Fws 0).mpr h]
  · intro h
    obtain ⟨l1, f, l2, hl, hf, hl1⟩ := exists_first (fun f : FwEntry => f.Typ = t) fw.Fws h
    refine ⟨l1, f, l2, hl, hf, hl1, ?_, by rw [hl]; simp; omega⟩
    unfold firmwareRemove
    rw [hl, findFwIndex_first t l1 l2 f 0 hf hl1, Nat.zero_add]
    simp only [shiftRemove_middle]
    split
    · next h1 =>
      have : l1 = [] ∧ l2 = [] := by
        simp only [List.length_append, List.length_cons] at h1
        constructor <;> apply List.eq_nil_of_length_eq_zero <;> omega
      rw [this.1, this.2]; rfl
    · rfl

theorem C18_firmwareRemove_witness :
    firmwareRemove tableKUK "Audio" = .error (.notFound "Audio")
    ∧ ∃ l1 f l2, tableKUK.Fws = l1 ++ f :: l2 ∧ f.Typ = "Kernel"
        ∧ (∀ g ∈ l1, g.Typ ≠ "Kernel")
        ∧ firmwareRemove tableKUK "Kernel" = .ok { tableKUK with Fws := l1 ++ l2 }
        ∧ (l1 ++ l2).length + 1 = tableKUK.Fws.length :=
  ⟨(C18_firmwareRemove tableKUK "Audio").1 (by decide),
   (C18_firmwareRemove tableKUK "Kernel").2 ⟨exFw, by decide, rfl⟩⟩

theorem findFw_none (t : String) (fs : List FwEntry) :
    findFw t fs = none ↔ ∀ f ∈ fs, f.Typ ≠ t := by
  induction fs with
  | nil => simp [findFw]
  | cons f fs ih =>
    unfold findFw
    by_cases hf : f.Typ = t
    · simp [hf]
    · simp [hf, ih]

theorem findFw_some (t : String) (fs : List FwEntry) (f : FwEntry) (h : findFw t fs = some f) :
    f ∈ fs ∧ f.Typ = t := by
  induction fs with
  | nil => simp [findFw] at h
  | cons g fs ih =>
    unfold findFw at h
    by_cases hg : g.Typ = t
    · rw [if_pos hg] at h
      injection h with h; subst h
      exact ⟨List.mem_cons_self _ _, hg⟩
    · rw [if_neg hg] at h
      exact ⟨List.mem_cons_of_mem _ (ih h).1, (ih h).2⟩

theorem ReadFile_fields (fw : FwEntry) (r : List ReadEvent) :
    ∃ cs len pad, fw.ReadFile r
      = .ok { fw with Checksum := cs, Length := len, Paddings := pad } := by
  obtain ⟨h1, -⟩ := readFileLoop_error r 0 0 none
  unfold FwEntry.ReadFile
  rcases h : readFileLoop r 0 0 none with ⟨cs, size, err⟩
  rw [h] at h1
  simp only at h1
  subst h1
  exact ⟨_, _, _, rfl⟩

/-- C17: adding a firmware entry with `firmwareNew`. If `FindFwByType` finds
an entry of the type, the operation fails and yields no changed list.
Otherwise the firmware list becomes the old list followed by one new entry
with the given type, `ReadOnly = true`, `Lzma = false`, `Version = 0` and
`DiskOffset = sector * 512`; so pairwise distinct types stay pairwise distinct.
`FindFwByType` finds an entry exactly when some entry has the type. -/
theorem C17_firmwareNew (fw : FwTable) (t : String) (sector : Int) (loadAddr : Nat)
    (payload : List ReadEvent) :
    (fw.FindFwByType t = none ↔ ∀ f ∈ fw.Fws, f.Typ ≠ t)
    ∧ (∀ f, fw.FindFwByType t = some f →
        firmwareNew fw t sector loadAddr payload = .error (.alreadyExists t))
    ∧ (fw.FindFwByType t = none →
        ∃ e, firmwareNew fw t sector loadAddr payload = .ok { fw with Fws := fw.Fws ++ [e] }
          ∧ e.Typ = t ∧ e.ReadOnly = true ∧ e.Lzma = false ∧ e.Version = 0
          ∧ e.DiskOffset = sector * 512
          ∧ ((fw.Fws.map (fun f => f.Typ)).Nodup
              → ((fw.Fws ++ [e]).map (fun f => f.Typ)).Nodup)) := by
  refine ⟨findFw_none t fw.Fws, ?_, ?_⟩
  · intro f hf
    unfold firmwareNew
    rw [hf]
  · intro hn
    obtain ⟨cs, len, pad, hr⟩ := ReadFile_fields
      { FwEntry.ofContent [] with
        Typ := t, Lzma := false, ReadOnly := true, Version := 0,
        DiskOffset := sector * 512, TargetAddress := loadAddr % 4294967296 } payload
    dsimp only at hr
    refine ⟨_, by unfold firmwareNew; rw [hn]; dsimp only; rw [hr], rfl, rfl, rfl, rfl, rfl, ?_⟩
    intro hnd
    have hnot : t ∉ fw.Fws.map (fun f => f.Typ) := by
      intro hm
      obtain ⟨f, hf, hft⟩ := List.mem_map.mp hm
      exact (findFw_none t fw.Fws).mp hn f hf hft
    rw [List.map_append, List.nodup_append]
    refine ⟨hnd, by simp, ?_⟩
    intro a ha hb
    simp only [List.map_cons, List.map_nil, List.mem_singleton] at hb
    subst hb
    exact hnot ha

theorem C17_firmwareNew_witness :
    firmwareNew exTable "Kernel" 8 35651584 [.byte 1] = .error (.alreadyExists "Kernel")
    ∧ ∃ e, firmwareNew exTable "uBoot" 8 35651584 [.byte 1]
          = .ok { exTable with Fws := exTable.Fws ++ [e] }
        ∧ e.Typ = "uBoot" ∧ e.ReadOnly = true ∧ e.Lzma = false ∧ e.Version = 0
        ∧ e.DiskOffset = 8 * 512
        ∧ ((exTable.Fws.map (fun f => f.Typ)).Nodup
            → ((exTable.Fws ++ [e]).map (fun f => f.Typ)).Nodup) :=
  ⟨(C17_firmwareNew exTable "Kernel" 8 35651584 [.byte 1]).2.1 exFw rfl,
   (C17_firmwareNew exTable "uBoot" 8 35651584 [.byte 1]).2.2 rfl⟩

/-! ## Decoding an arbitrary stream -/

theorem readInto_inv (r b r1 : List Nat) (n : Nat) (h : readInto r n = .ok (b, r1)) :
    r ≠ [] ∧ b = blockAt r n 0 ∧ r1 = r.drop n := by
  unfold readInto at h
  split at h
  · cases h
  · next hne =>
    injection h with h
    injection h with h1 h2
    refine ⟨fun h0 => hne (by rw [h0]; rfl), ?_, h2.symm⟩
    rw [← h1]; simp [blockAt]

theorem blockAt_succ (r : List Nat) (n j : Nat) :
    blockAt r n (j + 1) = blockAt (r.drop n) n j := by
  unfold blockAt
  rw [List.drop_drop, show n + n * j = n * (j + 1) by ring]

theorem PartEntry_ReadContent_inv (b : List Nat) (d : PartEntry)
    (h : (PartEntry.ofContent b).ReadContent = .ok d) :
    d.content = b ∧ (PartEntry.ofContent d.content).ReadContent = .ok d := by
  have hc : d.content = b := by
    unfold PartEntry.ReadContent at h
    split at h
    · cases h
    · injection h with h; rw [← h]; rfl
  exact ⟨hc, by rw [hc]; exact h⟩

theorem FwEntry_ReadContent_inv (b : List Nat) (d : FwEntry)
    (h : (FwEntry.ofContent b).ReadContent = .ok d) :
    d.content = b ∧ (FwEntry.ofContent d.content).ReadContent = .ok d := by
  have hc : d.content = b := by
    unfold FwEntry.ReadContent at h
    split at h
    · cases h
    · injection h with h; rw [← h]; rfl
  exact ⟨hc, by rw [hc]; exact h⟩

theorem readParts_inv (k i : Nat) (r : List Nat) (ps : List PartEntry) (r2 : List Nat)
    (h : readParts k i r = .ok (ps, r2)) :
    ps.length = k ∧ r2 = r.drop (48 * k)
      ∧ ps.map (fun p => p.content) = (List.range k).map (blockAt r 48)
      ∧ ∀ p ∈ ps, (PartEntry.ofContent p.content).ReadContent = .ok p := by
  induction k generalizing i r ps with
  | zero =>
    simp only [readParts, Except.ok.injEq, Prod.mk.injEq] at h
    obtain ⟨h1, h2⟩ := h
    subst h1 h2
    simp
  | succ k ih =>
    unfold readParts at h
    split at h
    · cases h
    · next b r1 hb =>
      obtain ⟨-, hb1, hb2⟩ := readInto_inv _ _ _ _ hb
      split at h
      · cases h
      · next d hd =>
        obtain ⟨hdc, hdd⟩ := PartEntry_ReadContent_inv _ _ hd
        split at h
        · cases h
        · next ps1 r3 hrest =>
          injection h with h
          injection h with h1 h2
          subst h1 h2
          obtain ⟨a1, a2, a3, a4⟩ := ih _ _ _ hrest
          refine ⟨by simp [a1], ?_, ?_, ?_⟩
          · rw [a2, hb2, List.drop_drop]
            congr 1
            simp only [partEntrySize]; ring
          · rw [List.range_succ_eq_map, List.map_cons, List.map_cons, List.map_map, a3, hdc,
              hb1, hb2]
            congr 1
            apply List.map_congr_left
            intro j _
            simp only [Function.comp, partEntrySize, blockAt_succ]
          · intro p hp
            rcases List.mem_cons.mp hp with rfl | hp
            · exact hdd
            · exact a4 p hp

theorem readFws_inv (k i : Nat) (r : List Nat) (fs : List FwEntry) (r2 : List Nat)
    (h : readFws k i r = .ok (fs, r2)) :
    fs.length = k ∧ r2 = r.drop (32 * k)
      ∧ fs.map (fun f => f.content) = (List.range k).map (blockAt r 32)
      ∧ ∀ f ∈ fs, (FwEntry.ofContent f.content).ReadContent = .ok f := by
  induction k generalizing i r fs with
  | zero =>
    simp only [readFws, Except.ok.injEq, Prod.mk.injEq] at h
    obtain ⟨h1, h2⟩ := h
    subst h1 h2
    simp
  | succ k ih =>
    unfold readFws at h
    split at h
    · cases h
    · next b r1 hb =>
      obtain ⟨-, hb1, hb2⟩ := readInto_inv _ _ _ _ hb
      split at h
      · cases h
      · next d hd =>
        obtain ⟨hdc, hdd⟩ := FwEntry_ReadContent_inv _ _ hd
        split at h
        · cases h
        · next fs1 r3 hrest =>
          injection h with h
          injection h with h1 h2
          subst h1 h2
          obtain ⟨a1, a2, a3, a4⟩ := ih _ _ _ hrest
          refine ⟨by simp [a1], ?_, ?_, ?_⟩
          · rw [a2, hb2, List.drop_drop]
            congr 1
            simp only [fwEntrySize]; ring
          · rw [List.range_succ_eq_map, List.map_cons, List.map_cons, List.map_map, a3, hdc,
              hb1, hb2]
            congr 1
            apply List.map_congr_left
            intro j _
            simp only [Function.comp, fwEntrySize, blockAt_succ]
          · intro p hp
            rcases List.mem_cons.mp hp with rfl | hp
            · exact hdd
            · exact a4 p hp

theorem New_inv (s : List Nat) (fw : FwTable) (h : New s = .ok fw) :
    s ≠ [] ∧ fw.content = blockAt s 32 0 ∧ fw.table = FwTableHeader.ofBytes fw.content
      ∧ fw.table.PartListLen % 48 = 0 ∧ fw.table.FwListLen % 32 = 0
      ∧ ∃ r2 r3, readParts (fw.table.PartListLen / 48) 0 (s.drop 32) = .ok (fw.Parts, r2)
          ∧ readFws (fw.table.FwListLen / 32) 0 r2 = .ok (fw.Fws, r3) := by
  unfold New at h
  split at h
  · cases h
  · next b r1 hb =>
    obtain ⟨hne, hb1, hb2⟩ := readInto_inv _ _ _ _ hb
    split at h
    · cases h
    · next fw0 h0 =>
      have hc : fw0.content = b ∧ fw0.table = FwTableHeader.ofBytes b := by
        unfold FwTable.ReadContent at h0
        split at h0
        · cases h0
        · injection h0 with h0; subst h0; exact ⟨rfl, rfl⟩
      split at h
      · cases h
      · next hpl =>
        split at h
        · cases h
        · next hfl =>
          split at h
          · cases h
          · next ps r2 hps =>
            split at h
            · cases h
            · next fs r3 hfs =>
              injection h with h; subst h
              simp only [partEntrySize, fwEntrySize, ne_eq, not_not] at hpl hfl hps hfs
              simp only [fwTableSize] at hb1 hb2
              refine ⟨hne, by rw [hc.1, hb1], by rw [hc.2, hc.1], hpl, hfl, r2, r3, ?_, hfs⟩
              rw [← hb2]; exact hps

theorem New_misaligned_parts (s : List Nat) (hne : s ≠ [])
    (h : (FwTableHeader.ofBytes (blockAt s 32 0)).PartListLen % 48 ≠ 0) :
    New s = .error (.partsNotAligned (FwTableHeader.ofBytes (blockAt s 32 0)).PartListLen) := by
  have hr : readInto s fwTableSize = .ok (blockAt s 32 0, s.drop 32) := by
    unfold readInto
    rw [if_neg (by intro h0; exact hne (List.eq_nil_of_length_eq_zero h0))]
    simp [blockAt, fwTableSize]
  obtain ⟨fw0, h0, -, ht0, -⟩ := FwTable_ReadContent_ok (blockAt s 32 0) (by simp [blockAt]; omega)
  unfold New
  simp only [hr, h0, ht0, partEntrySize]
  rw [if_pos h]

theorem New_misaligned_fws (s : List Nat) (hne : s ≠ [])
    (hp : (FwTableHeader.ofBytes (blockAt s 32 0)).PartListLen % 48 = 0)
    (h : (FwTableHeader.ofBytes (blockAt s 32 0)).FwListLen % 32 ≠ 0) :
    New s = .error (.fwsNotAligned (FwTableHeader.ofBytes (blockAt s 32 0)).FwListLen) := by
  have hr : readInto s fwTableSize = .ok (blockAt s 32 0, s.drop 32) := by
    unfold readInto
    rw [if_neg (by intro h0; exact hne (List.eq_nil_of_length_eq_zero h0))]
    simp [blockAt, fwTableSize]
  obtain ⟨fw0, h0, -, ht0, -⟩ := FwTable_ReadContent_ok (blockAt s 32 0) (by simp [blockAt]; omega)
  unfold New
  simp only [hr, h0, ht0, partEntrySize, fwEntrySize]
  rw [if_neg (by simpa using hp), if_pos h]

/-- C12: misaligned array lengths are rejected. The header of a stream is its
first 32 bytes (`blockAt s 32 0`, zero-filled if the stream is shorter). If
`PartListLen` is not a multiple of 48, `New` returns the misaligned-length
error; if it is and `FwListLen` is not a multiple of 32, likewise. Whenever
`New` succeeds, both lengths are aligned, the table has exactly
`PartListLen / 48` partition entries and `FwListLen / 32` firmware entries, and
they are in stream order: the `j`-th partition entry is decoded from the `j`-th
48-byte block after the header and the `j`-th firmware entry from the `j`-th
32-byte block after the partition blocks. -/
theorem C12_New_alignment :
    (∀ s : List Nat, s ≠ [] →
        (FwTableHeader.ofBytes (blockAt s 32 0)).PartListLen % 48 ≠ 0 →
        New s = .error (.partsNotAligned (FwTableHeader.ofBytes (blockAt s 32 0)).PartListLen))
    ∧ (∀ s : List Nat, s ≠ [] →
        (FwTableHeader.ofBytes (blockAt s 32 0)).PartListLen % 48 = 0 →
        (FwTableHeader.ofBytes (blockAt s 32 0)).FwListLen % 32 ≠ 0 →
        New s = .error (.fwsNotAligned (FwTableHeader.ofBytes (blockAt s 32 0)).FwListLen))
    ∧ (∀ (s : List Nat) (fw : FwTable), New s = .ok fw →
        fw.table = FwTableHeader.ofBytes (blockAt s 32 0)
        ∧ fw.table.PartListLen % 48 = 0 ∧ fw.table.FwListLen % 32 = 0
        ∧ fw.Parts.length = fw.table.PartListLen / 48
        ∧ fw.Fws.length = fw.table.FwListLen / 32
        ∧ fw.Parts.map (fun p => p.content)
            = (List.range (fw.table.PartListLen / 48)).map (blockAt (s.drop 32) 48)
        ∧ fw.Fws.map (fun f => f.content)
            = (List.range (fw.table.FwListLen / 32)).map
                (blockAt (s.drop (32 + fw.table.PartListLen)) 32)
        ∧ (∀ p ∈ fw.Parts, (PartEntry.ofContent p.content).ReadContent = .ok p)
        ∧ (∀ f ∈ fw.Fws, (FwEntry.ofContent f.content).ReadContent = .ok f)) := by
  refine ⟨New_misaligned_parts, New_misaligned_fws, ?_⟩
  intro s fw h
  obtain ⟨-, hc, ht, hpl, hfl, r2, r3, hps, hfs⟩ := New_inv s fw h
  obtain ⟨a1, a2, a3, a4⟩ := readParts_inv _ _ _ _ _ hps
  obtain ⟨b1, -, b3, b4⟩ := readFws_inv _ _ _ _ _ hfs
  refine ⟨by rw [ht, hc], hpl, hfl, a1, b1, a3, ?_, a4, b4⟩
  have h48 : 48 * (fw.table.PartListLen / 48) = fw.table.PartListLen := by omega
  rw [b3, a2, List.drop_drop, h48]

set_option maxRecDepth 100000 in
theorem C12_New_alignment_witness :
    New (exStream.set 24 47) = .error (.partsNotAligned 47)
    ∧ exDecoded.table = FwTableHeader.ofBytes (blockAt exStream 32 0)
    ∧ exDecoded.table.PartListLen % 48 = 0 ∧ exDecoded.table.FwListLen % 32 = 0
    ∧ exDecoded.Parts.length = exDecoded.table.PartListLen / 48
    ∧ exDecoded.Fws.length = exDecoded.table.FwListLen / 32
    ∧ exDecoded.Parts.map (fun p => p.content)
        = (List.range (exDecoded.table.PartListLen / 48)).map (blockAt (exStream.drop 32) 48)
    ∧ exDecoded.Fws.map (fun f => f.content)
        = (List.range (exDecoded.table.FwListLen / 32)).map
            (blockAt (exStream.drop (32 + exDecoded.table.PartListLen)) 32)
    ∧ (∀ p ∈ exDecoded.Parts, (PartEntry.ofContent p.content).ReadContent = .ok p)
    ∧ (∀ f ∈ exDecoded.Fws, (FwEntry.ofContent f.content).ReadContent = .ok f) :=
  ⟨C12_New_alignment.1 (exStream.set 24 47) (by decide) (by decide),
   C12_New_alignment.2.2 exStream exDecoded rfl⟩

/-! ## Short streams -/

set_option maxRecDepth 100000 in
/-- C11 (the code at the failing input): `New` on the 10-byte stream returns a
table whose header buffer is the 10 bytes followed by 22 zeros; `New` on the
90-byte stream, whose header announces 48 + 32 bytes of entries, returns a
table whose firmware entry is decoded from the 10 bytes left and 22 zeros
(length 0 where the full stream has 512). Only a read that starts at the end
of the stream fails: the empty stream and the stream cut after 80 bytes. -/
theorem C11_New_short_reads :
    shortStream.length = 10
    ∧ (∃ fw, New shortStream = .ok fw ∧ fw.content = shortStream ++ List.replicate 22 0
        ∧ fw.Parts = [] ∧ fw.Fws = [])
    ∧ truncatedStream.length = 90
    ∧ (FwTableHeader.ofBytes (truncatedStream.take 32)).PartListLen = 48
    ∧ (FwTableHeader.ofBytes (truncatedStream.take 32)).FwListLen = 32
    ∧ (∃ fw, New truncatedStream = .ok fw
        ∧ fw.Fws.map (fun f => (f.content, f.Length))
            = [((exStream.drop 80).take 10 ++ List.replicate 22 0, 0)])
    ∧ exDecoded.Fws.map (fun f => f.Length) = [512]
    ∧ New [] = .error (.read .eof)
    ∧ New (exStream.take 80) = .error (.readFw 0 .eof) :=
  ⟨rfl, ⟨_, rfl, rfl, rfl, rfl⟩, rfl, rfl, rfl, ⟨_, rfl, rfl⟩, rfl, rfl, rfl⟩

/-! ## Type codes outside the enumerations -/

theorem invalidName_head (n : Nat) : (invalidName n).data.take 2 = ['I', 'n'] := by
  simp [invalidName, String.data_append]

theorem invalidName_not_FwTypes (n : Nat) : invalidName n ∉ FwTypes := by
  intro h
  have h1 : ∀ name ∈ FwTypes, name.data.take 2 ≠ ['I', 'n'] := by decide
  exact h1 _ h (invalidName_head n)

theorem invalidName_not_partTypes (n : Nat) : invalidName n ∉ partTypes := by
  intro h
  have h1 : ∀ name ∈ partTypes, name.data.take 2 ≠ ['I', 'n'] := by decide
  exact h1 _ h (invalidName_head n)

theorem FwEntry_decode_unknown (b : List Nat) (hlen : b.length = 32)
    (hcode : 47 ≤ b.getD 0 0) :
    ∃ d, (FwEntry.ofContent b).ReadContent = .ok d ∧ d.Typ = invalidName (b.getD 0 0)
      ∧ d.WriteContent = .error (.invalidType (invalidName (b.getD 0 0))) := by
  have hdec : ∃ d, (FwEntry.ofContent b).ReadContent = .ok d
      ∧ d.Typ = invalidName (b.getD 0 0) := by
    unfold FwEntry.ReadContent binaryReadErr
    simp only [FwEntry.ofContent, hlen, fwEntrySize]
    refine ⟨_, rfl, ?_⟩
    have h47 : FwTypes.length = 47 := rfl
    have hv : leValue (field b 0 1) = b.getD 0 0 := by
      rcases b with _ | ⟨x, b⟩
      · simp at hlen
      · simp [field, leValue]
    simp only [FwEntryTable.ofBytes, hv, h47]
    rw [if_pos hcode]
  obtain ⟨d, hd, hT⟩ := hdec
  refine ⟨d, hd, hT, ?_⟩
  have hnone : typeCode d.Typ FwTypes 0 = none := by
    cases hi : typeCode d.Typ FwTypes 0 with
    | none => rfl
    | some i =>
      exfalso
      have hlt := (typeCode_some _ _ _ _ hi).2.1
      have hget := (typeCode_some _ _ _ _ hi).2.2
      apply invalidName_not_FwTypes (b.getD 0 0)
      rw [← hT, ← hget, List.getD_eq_getElem _ _ (by omega)]
      exact List.getElem_mem _
  unfold FwEntry.WriteContent
  rw [hnone, hT]

theorem PartEntry_decode_unknown (b : List Nat) (hlen : b.length = 48)
    (hcode : 3 ≤ b.getD 0 0) :
    ∃ d, (PartEntry.ofContent b).ReadContent = .ok d ∧ d.Typ = invalidName (b.getD 0 0)
      ∧ d.WriteContent = .error (.invalidType (invalidName (b.getD 0 0))) := by
  have hdec : ∃ d, (PartEntry.ofContent b).ReadContent = .ok d
      ∧ d.Typ = invalidName (b.getD 0 0) := by
    unfold PartEntry.ReadContent binaryReadErr
    simp only [PartEntry.ofContent, hlen, partEntrySize]
    refine ⟨_, rfl, ?_⟩
    have h3 : partTypes.length = 3 := rfl
    have hv : leValue (field b 0 1) = b.getD 0 0 := by
      rcases b with _ | ⟨x, b⟩
      · simp at hlen
      · simp [field, leValue]
    simp only [PartEntryTable.ofBytes, hv, h3]
    rw [if_pos hcode]
  obtain ⟨d, hd, hT⟩ := hdec
  refine ⟨d, hd, hT, ?_⟩
  have hnone : typeCode d.Typ partTypes 0 = none := by
    cases hi : typeCode d.Typ partTypes 0 with
    | none => rfl
    | some i =>
      exfalso
      have hlt := (typeCode_some _ _ _ _ hi).2.1
      have hget := (typeCode_some _ _ _ _ hi).2.2
      apply invalidName_not_partTypes (b.getD 0 0)
      rw [← hT, ← hget, List.getD_eq_getElem _ _ (by omega)]
      exact List.getElem_mem _
  unfold PartEntry.WriteContent
  rw [hnone, hT]

theorem WriteContent_fails_of_fw (fw : FwTable) (f : FwEntry) (hf : f ∈ fw.Fws)
    (herr : ∃ err, f.WriteContent = .error err) : ∃ err, fw.WriteContent = .error err := by
  cases h : fw.WriteContent with
  | error e => exact ⟨e, rfl⟩
  | ok fw1 =>
    exfalso
    obtain ⟨-, parts, fws, -, hwf, -⟩ := WriteContent_ok_iff fw fw1 h
    obtain ⟨f1, hf1⟩ := writeFws_ok_inv _ _ _ hwf f hf
    obtain ⟨err, he⟩ := herr
    rw [hf1] at he; cases he

theorem WriteContent_fails_of_part (fw : FwTable) (p : PartEntry) (hp : p ∈ fw.Parts)
    (herr : ∃ err, p.WriteContent = .error err) : ∃ err, fw.WriteContent = .error err := by
  cases h : fw.WriteContent with
  | error e => exact ⟨e, rfl⟩
  | ok fw1 =>
    exfalso
    obtain ⟨-, parts, fws, hwp, -⟩ := WriteContent_ok_iff fw fw1 h
    obtain ⟨p1, hp1⟩ := writeParts_ok_inv _ _ _ hwp p hp
    obtain ⟨err, he⟩ := herr
    rw [hp1] at he; cases he

/-- C20 (as stated, refuted): the firmware block with type code 200 and the
partition block with type code 9 are decoded to entries named "Invalid (200)"
and "Invalid (9)", and encoding those entries again returns the invalid-type
error. -/
theorem C20_unknown_codes_counterexample :
    (∃ d, (FwEntry.ofContent fwBlock200).ReadContent = .ok d ∧ d.Typ = "Invalid (200)"
      ∧ d.WriteContent = .error (.invalidType "Invalid (200)"))
    ∧ (∃ d, (PartEntry.ofContent partBlock9).ReadContent = .ok d ∧ d.Typ = "Invalid (9)"
      ∧ d.WriteContent = .error (.invalidType "Invalid (9)")) :=
  ⟨⟨_, rfl, by decide, rfl⟩, ⟨_, rfl, by decide, rfl⟩⟩

/-- C20 (amended): for every 32-byte firmware block whose type code is 47 or
more and every 48-byte partition block whose type code is 3 or more, decoding
does not fail and yields the placeholder name `Invalid (N)`; encoding the
decoded entry again fails with the invalid-type error, and `WriteContent` on a
table that contains such an entry returns an error. -/
theorem C20_unknown_codes_amended :
    (∀ b : List Nat, b.length = 32 → 47 ≤ b.getD 0 0 →
      ∃ d, (FwEntry.ofContent b).ReadContent = .ok d ∧ d.Typ = invalidName (b.getD 0 0)
        ∧ d.WriteContent = .error (.invalidType (invalidName (b.getD 0 0)))
        ∧ ∀ fw : FwTable, d ∈ fw.Fws → ∃ err, fw.WriteContent = .error err)
    ∧ (∀ b : List Nat, b.length = 48 → 3 ≤ b.getD 0 0 →
      ∃ d, (PartEntry.ofContent b).ReadContent = .ok d ∧ d.Typ = invalidName (b.getD 0 0)
        ∧ d.WriteContent = .error (.invalidType (invalidName (b.getD 0 0)))
        ∧ ∀ fw : FwTable, d ∈ fw.Parts → ∃ err, fw.WriteContent = .error err) := by
  constructor
  · intro b hlen hcode
    obtain ⟨d, h1, h2, h3⟩ := FwEntry_decode_unknown b hlen hcode
    exact ⟨d, h1, h2, h3, fun fw hd => WriteContent_fails_of_fw fw d hd ⟨_, h3⟩⟩
  · intro b hlen hcode
    obtain ⟨d, h1, h2, h3⟩ := PartEntry_decode_unknown b hlen hcode
    exact ⟨d, h1, h2, h3, fun fw hd => WriteContent_fails_of_part fw d hd ⟨_, h3⟩⟩

theorem C20_unknown_codes_amended_witness :
    (∃ d, (FwEntry.ofContent fwBlock200).ReadContent = .ok d
        ∧ d.Typ = invalidName (fwBlock200.getD 0 0)
        ∧ d.WriteContent = .error (.invalidType (invalidName (fwBlock200.getD 0 0)))
        ∧ ∀ fw : FwTable, d ∈ fw.Fws → ∃ err, fw.WriteContent = .error err)
    ∧ (∃ d, (PartEntry.ofContent partBlock9).ReadContent = .ok d
        ∧ d.Typ = invalidName (partBlock9.getD 0 0)
        ∧ d.WriteContent = .error (.invalidType (invalidName (partBlock9.getD 0 0)))
        ∧ ∀ fw : FwTable, d ∈ fw.Parts → ∃ err, fw.WriteContent = .error err) :=
  ⟨C20_unknown_codes_amended.1 fwBlock200 rfl (by decide),
   C20_unknown_codes_amended.2 partBlock9 rfl (by decide)⟩

/-! ## Export: the stream written, and the wrap-around of the 32-bit size -/

theorem blockAt_zeros (n m j : Nat) :
    blockAt (List.replicate n 0) m j = List.replicate m 0 := by
  simp only [blockAt, List.drop_replicate, List.take_replicate, List.length_replicate,
    List.append_replicate_replicate]
  congr 1
  omega

theorem blockAt_length (r : List Nat) (n j : Nat) : (blockAt r n j).length = n := by
  simp [blockAt]; omega

theorem New_parts_content (s : List Nat) (fw : FwTable) (h : New s = .ok fw) :
    fw.content.length = 32 ∧ (∀ p ∈ fw.Parts, p.content.length = 48)
      ∧ (∀ f ∈ fw.Fws, f.content.length = 32) := by
  obtain ⟨-, hc, -, -, -, r2, r3, hps, hfs⟩ := New_inv s fw h
  obtain ⟨-, -, a3, -⟩ := readParts_inv _ _ _ _ _ hps
  obtain ⟨-, -, b3, -⟩ := readFws_inv _ _ _ _ _ hfs
  refine ⟨by rw [hc]; exact blockAt_length _ _ _, ?_, ?_⟩
  · intro p hp
    have : p.content ∈ fw.Parts.map (fun p => p.content) := List.mem_map_of_mem _ hp
    rw [a3] at this
    obtain ⟨j, -, hj⟩ := List.mem_map.mp this
    rw [← hj]; exact blockAt_length _ _ _
  · intro f hf
    have : f.content ∈ fw.Fws.map (fun f => f.content) := List.mem_map_of_mem _ hf
    rw [b3] at this
    obtain ⟨j, -, hj⟩ := List.mem_map.mp this
    rw [← hj]; exact blockAt_length _ _ _

theorem New_zero_entries (hdr : List Nat) (n : Nat) (fw : FwTable) (hlen : hdr.length = 32)
    (h : New (hdr ++ List.replicate n 0) = .ok fw) :
    (∀ p ∈ fw.Parts, p = zeroPart) ∧ (∀ f ∈ fw.Fws, f = zeroFw) := by
  obtain ⟨-, -, -, -, -, r2, r3, hps, hfs⟩ := New_inv _ fw h
  rw [List.drop_left' hlen] at hps
  obtain ⟨-, a2, a3, a4⟩ := readParts_inv _ _ _ _ _ hps
  rw [a2, List.drop_replicate] at hfs
  obtain ⟨-, -, b3, b4⟩ := readFws_inv _ _ _ _ _ hfs
  constructor
  · intro p hp
    have hm : p.content ∈ fw.Parts.map (fun p => p.content) := List.mem_map_of_mem _ hp
    rw [a3] at hm
    obtain ⟨j, -, hj⟩ := List.mem_map.mp hm
    rw [blockAt_zeros] at hj
    have hd := a4 p hp
    rw [← hj] at hd
    have hz : (PartEntry.ofContent (List.replicate 48 0)).ReadContent = .ok zeroPart := rfl
    rw [hz] at hd
    injection hd with hd
    exact hd.symm
  · intro f hf
    have hm : f.content ∈ fw.Fws.map (fun f => f.content) := List.mem_map_of_mem _ hf
    rw [b3] at hm
    obtain ⟨j, -, hj⟩ := List.mem_map.mp hm
    rw [blockAt_zeros] at hj
    have hd := b4 f hf
    rw [← hj] at hd
    have hz : (FwEntry.ofContent (List.replicate 32 0)).ReadContent = .ok zeroFw := rfl
    rw [hz] at hd
    injection hd with hd
    exact hd.symm

theorem FwTable_WriteContent_all_ok (fw : FwTable) (hs : 8 ≤ fw.Signature.length)
    (hp : ∀ p ∈ fw.Parts, ∃ p1, p.WriteContent = .ok p1)
    (hf : ∀ f ∈ fw.Fws, ∃ f1, f.WriteContent = .ok f1) :
    ∃ fw1, fw.WriteContent = .ok fw1 := by
  obtain ⟨ps1, hps1⟩ := writeParts_all_ok fw.Parts 0 hp
  have hfs : ∃ fs1, writeFws fw.Fws 0 = .ok fs1 := by
    have key : ∀ (fs : List FwEntry) (i : Nat),
        (∀ f ∈ fs, ∃ f1, f.WriteContent = .ok f1) → ∃ fs1, writeFws fs i = .ok fs1 := by
      intro fs
      induction fs with
      | nil => intro i _; exact ⟨[], rfl⟩
      | cons f fs ih =>
        intro i h
        obtain ⟨f1, hf1⟩ := h f (List.mem_cons_self _ _)
        obtain ⟨fs1, hfs1⟩ := ih (i + 1) (fun q hq => h q (List.mem_cons_of_mem _ hq))
        exact ⟨f1 :: fs1, by simp only [writeFws, hf1, hfs1]⟩
    exact key fw.Fws 0 hf
  obtain ⟨fs1, hfs1⟩ := hfs
  unfold FwTable.WriteContent
  simp only [if_neg (show ¬ fw.Signature.length < 8 by omega), hps1, hfs1]
  exact ⟨_, rfl⟩

theorem Export_panic (fw : FwTable)
    (h : fw.Size < ((fw.content.length + ((fw.Parts.map (fun p => p.content)).flatten).length
          + ((fw.Fws.map (fun f => f.content)).flatten).length : Nat) : Int)) :
    fw.Export bufferWriter [] = .error .panic := by
  unfold FwTable.Export
  simp only [exportWrite_buffer, exportParts_buffer, exportFws_buffer, List.nil_append]
  rw [if_pos (by omega)]

theorem written_size (fw fw1 : FwTable)
    (hsz : 32 + 48 * fw.Parts.length + 32 * fw.Fws.length < 4294967296 - 512)
    (hw : fw.WriteContent = .ok fw1) :
    fw1.Size = ((32 + 48 * fw.Parts.length + 32 * fw.Fws.length
        + (512 - (32 + 48 * fw.Parts.length + 32 * fw.Fws.length) % 512) : Nat) : Int)
    ∧ fw1.table.Paddings = 32 + 48 * fw.Parts.length + 32 * fw.Fws.length
        + (512 - (32 + 48 * fw.Parts.length + 32 * fw.Fws.length) % 512) := by
  obtain ⟨-, parts, fws, -, -, -, -, -, -, -, htab, -, -, hsize, -⟩ :=
    WriteContent_ok_iff fw fw1 hw
  have e1 : (headerOf fw).PartListLen = 48 * fw.Parts.length := by
    show (48 * fw.Parts.length) % 4294967296 = _; omega
  have e2 : (headerOf fw).FwListLen = 32 * fw.Fws.length := by
    show (32 * fw.Fws.length) % 4294967296 = _; omega
  have e3 : (headerOf fw).Paddings
      = ((32 + (headerOf fw).PartListLen + (headerOf fw).FwListLen) % 4294967296 + 512
          - (32 + (headerOf fw).PartListLen + (headerOf fw).FwListLen) % 4294967296 % 512)
          % 4294967296 := rfl
  have e4 : (headerOf fw).Paddings
      = 32 + 48 * fw.Parts.length + 32 * fw.Fws.length
        + (512 - (32 + 48 * fw.Parts.length + 32 * fw.Fws.length) % 512) := by
    have e5 : (32 + 48 * fw.Parts.length + 32 * fw.Fws.length) % 4294967296
        = 32 + 48 * fw.Parts.length + 32 * fw.Fws.length := Nat.mod_eq_of_lt (by omega)
    rw [e3, e1, e2, e5]
    generalize 32 + 48 * fw.Parts.length + 32 * fw.Fws.length = t at hsz ⊢
    rw [Nat.mod_eq_of_lt (by omega)]
    omega
  have t3 : fw1.table.Paddings = (headerOf fw).Paddings := by rw [htab]
  exact ⟨by rw [hsize, e4], by rw [t3, e4]⟩

theorem zero_stream_wrap (hdr : List Nat) (p f n : Nat) (hlen : hdr.length = 32)
    (hp : (FwTableHeader.ofBytes hdr).PartListLen = 48 * p)
    (hf : (FwTableHeader.ofBytes hdr).FwListLen = 32 * f)
    (hn : 48 * p + 32 * f < n)
    (hwrap : ((32 + 48 * p % 4294967296 + 32 * f % 4294967296) % 4294967296 + 512
        - (32 + 48 * p % 4294967296 + 32 * f % 4294967296) % 4294967296 % 512) % 4294967296
        < 32 + 48 * p + 32 * f) :
    ∃ fw fw1, New (hdr ++ List.replicate n 0) = .ok fw ∧ fw.Parts.length = p
      ∧ fw.Fws.length = f ∧ fw.WriteContent = .ok fw1
      ∧ fw1.Export bufferWriter [] = .error .panic := by
  have htake : (hdr ++ List.replicate n 0).take 32 = hdr := List.take_left' hlen
  obtain ⟨fw, hnew, hc, ht, hs, -, hPl, hFl, -⟩ :=
    New_stream (hdr ++ List.replicate n 0) p f (by rw [htake]; exact hp)
      (by rw [htake]; exact hf) (by simp [hlen]; omega)
  obtain ⟨hzp, hzf⟩ := New_zero_entries hdr n fw hlen hnew
  obtain ⟨hcl, hpc, -⟩ := New_parts_content _ fw hnew
  have hsig : 8 ≤ fw.Signature.length := by
    rw [hs, ht, htake]
    simp [FwTableHeader.ofBytes, field, hlen]
  obtain ⟨fw1, hw⟩ := FwTable_WriteContent_all_ok fw hsig
    (fun q hq => by rw [hzp q hq]; exact ⟨_, rfl⟩)
    (fun q hq => by rw [hzf q hq]; exact ⟨_, rfl⟩)
  refine ⟨fw, fw1, hnew, hPl, hFl, hw, ?_⟩
  obtain ⟨-, hl1, -⟩ := WriteContent_content fw fw1 hcl hw
  obtain ⟨-, parts, fws, hwp, hwf, hP, hF, -, -, -, -, -, -, hsize, -⟩ :=
    WriteContent_ok_iff fw fw1 hw
  have hpl : fw1.Parts.length = p := by rw [hP, writeParts_length _ _ _ hwp, hPl]
  have hfl : fw1.Fws.length = f := by rw [hF, writeFws_length _ _ _ hwf, hFl]
  have hPlen : ((fw1.Parts.map (fun p => p.content)).flatten).length = 48 * p := by
    rw [flatten_length_of_forall _ 48 _
      (by rw [hP]; exact writeParts_content_length _ _ _ hwp hpc), hpl]
  have hFlen : ((fw1.Fws.map (fun f => f.content)).flatten).length = 32 * f := by
    rw [flatten_length_of_forall _ 32 _
      (by rw [hF]; exact writeFws_content_length _ _ _ hwf), hfl]
  have hpad : (headerOf fw).Paddings
      = ((32 + 48 * fw.Parts.length % 4294967296 + 32 * fw.Fws.length % 4294967296)
            % 4294967296 + 512
          - (32 + 48 * fw.Parts.length % 4294967296 + 32 * fw.Fws.length % 4294967296)
            % 4294967296 % 512) % 4294967296 := rfl
  rw [hPl, hFl] at hpad
  apply Export_panic
  rw [hsize, hl1, hPlen, hFlen, hpad]
  exact_mod_cast hwrap

/-- C16 (as stated, refuted): the stream `bigStream` (a header announcing
89478485 partition entries and one firmware entry, followed by zeros) is
decoded by `New`, and `WriteContent` succeeds on the decoded table; the 32-bit
total size wraps around to 512, less than the 4294967344 bytes of header and
entries, and `Export` panics on the negative padding length instead of
returning nil. -/
theorem C16_Export_counterexample :
    ∃ fw fw1, New bigStream = .ok fw ∧ fw.Parts.length = 89478485 ∧ fw.Fws.length = 1
      ∧ fw.WriteContent = .ok fw1 ∧ fw1.Export bufferWriter [] = .error .panic :=
  zero_stream_wrap bigHeader 89478485 1 4294967313 rfl rfl rfl (by norm_num) (by norm_num)

/-- C16 (amended): for a table obtained by `New`, possibly with its entry
lists changed (partition entries keeping the 48-byte buffers of decode), with
`32 + 48 p + 32 f < 2^32 - 512`, on which `WriteContent` has succeeded:
`Export` to a writer that accepts every write in full returns no error and
writes exactly the 32 header bytes, then the 48 bytes of each partition entry
in order, then the 32 bytes of each firmware entry in order, then zero bytes,
for a total length equal to `Size` (the header's total size), a multiple of 512. -/
theorem C16_Export_amended (r : List Nat) (fw0 fw1 : FwTable) (parts : List PartEntry)
    (fws : List FwEntry) (hnew : New r = .ok fw0)
    (hpc : ∀ p ∈ parts, p.content.length = 48)
    (hsz : 32 + 48 * parts.length + 32 * fws.length < 4294967296 - 512)
    (hw : ({ fw0 with Parts := parts, Fws := fws } : FwTable).WriteContent = .ok fw1) :
    ∃ out pad, fw1.Export bufferWriter [] = .ok out
      ∧ out = fw1.content ++ (fw1.Parts.map (fun p => p.content)).flatten
          ++ (fw1.Fws.map (fun f => f.content)).flatten ++ List.replicate pad 0
      ∧ fw1.content.length = 32
      ∧ (∀ p ∈ fw1.Parts, p.content.length = 48) ∧ fw1.Parts.length = parts.length
      ∧ (∀ f ∈ fw1.Fws, f.content.length = 32) ∧ fw1.Fws.length = fws.length
      ∧ (out.length : Int) = fw1.Size ∧ fw1.Size = (fw1.table.Paddings : Int)
      ∧ out.length % 512 = 0 := by
  have hc : ({ fw0 with Parts := parts, Fws := fws } : FwTable).content.length = 32 :=
    New_content_length r fw0 hnew
  obtain ⟨hexp, hl1, hPlen, hFlen, -⟩ := written_export _ fw1 hc hpc hsz hw
  obtain ⟨hsize, hpad⟩ := written_size _ fw1 hsz hw
  obtain ⟨-, ps1, fs1, hwp, hwf, hP, hF, -⟩ := WriteContent_ok_iff _ fw1 hw
  simp only at hPlen hFlen hsize hpad hexp hwp hwf hsz
  refine ⟨_, _, hexp, rfl, hl1, ?_, ?_, ?_, ?_, ?_, ?_, ?_⟩
  · rw [hP]; exact writeParts_content_length _ _ _ hwp hpc
  · rw [hP]; exact writeParts_length _ _ _ hwp
  · rw [hF]; exact writeFws_content_length _ _ _ hwf
  · rw [hF]; exact writeFws_length _ _ _ hwf
  · rw [hsize]
    simp only [List.length_append, List.length_replicate, hl1, hPlen, hFlen]
  · rw [hsize, hpad]
  · simp only [List.length_append, List.length_replicate, hl1, hPlen, hFlen]
    omega

set_option maxRecDepth 100000 in
theorem C16_Export_amended_witness :
    ∃ out pad, exChangedWritten.Export bufferWriter [] = .ok out
      ∧ out = exChangedWritten.content
          ++ (exChangedWritten.Parts.map (fun p => p.content)).flatten
          ++ (exChangedWritten.Fws.map (fun f => f.content)).flatten ++ List.replicate pad 0
      ∧ exChangedWritten.content.length = 32
      ∧ (∀ p ∈ exChangedWritten.Parts, p.content.length = 48)
      ∧ exChangedWritten.Parts.length = exDecoded.Parts.length
      ∧ (∀ f ∈ exChangedWritten.Fws, f.content.length = 32)
      ∧ exChangedWritten.Fws.length = (exDecoded.Fws ++ [exFwBoot]).length
      ∧ (out.length : Int) = exChangedWritten.Size
      ∧ exChangedWritten.Size = (exChangedWritten.table.Paddings : Int)
      ∧ out.length % 512 = 0 :=
  C16_Export_amended exStream exDecoded exChangedWritten exDecoded.Parts
    (exDecoded.Fws ++ [exFwBoot]) rfl (by decide) (by decide) rfl

/-! ## The number of errors of Validate -/

/-- C21: the number of errors `Validate` returns is 1 if the signature differs
from "VERONA__" (else 0), plus the number of non-zero bytes among the reserved
header bytes, plus 1 if the stored checksum differs from the recomputed one
(else 0): one error per non-zero reserved byte. With the 7 reserved bytes of
the header it is at most 9, and the table decoded from `badStream` has 9. -/
theorem C21_Validate_count (fw : FwTable) :
    fw.Validate.length
      = (if fw.Signature ≠ signatureVERONA then 1 else 0)
        + fw.table.Reserved.countP (fun v => decide (v ≠ 0))
        + (if fw.table.Checksum ≠ fw.checksum then 1 else 0)
    ∧ (fw.table.Reserved.length = 7 → fw.Validate.length ≤ 9)
    ∧ (∃ fw9, New badStream = .ok fw9 ∧ fw9.table.Reserved.length = 7
        ∧ fw9.Validate.length = 9) := by
  have hlen : fw.Validate.length
      = (if fw.Signature ≠ signatureVERONA then 1 else 0)
        + fw.table.Reserved.countP (fun v => decide (v ≠ 0))
        + (if fw.table.Checksum ≠ fw.checksum then 1 else 0) := by
    rw [Validate_eq]
    simp only [List.length_append, List.length_replicate]
    by_cases h1 : fw.Signature = signatureVERONA <;>
      by_cases h2 : fw.table.Checksum = fw.checksum <;> simp [h1, h2]
  refine ⟨hlen, ?_, ⟨badDecoded, rfl, rfl, rfl⟩⟩
  intro h7
  have hc : fw.table.Reserved.countP (fun v => decide (v ≠ 0)) ≤ 7 := by
    rw [← h7]; exact List.countP_le_length _
  rw [hlen]
  split <;> split <;> omega

theorem C21_Validate_count_witness :
    badDecoded.Validate.length
      = (if badDecoded.Signature ≠ signatureVERONA then 1 else 0)
        + badDecoded.table.Reserved.countP (fun v => decide (v ≠ 0))
        + (if badDecoded.table.Checksum ≠ badDecoded.checksum then 1 else 0)
    ∧ badDecoded.Validate.length ≤ 9
    ∧ (∃ fw9, New badStream = .ok fw9 ∧ fw9.table.Reserved.length = 7
        ∧ fw9.Validate.length = 9) :=
  ⟨(C21_Validate_count badDecoded).1, (C21_Validate_count badDecoded).2.1 rfl,
   (C21_Validate_count badDecoded).2.2⟩

end Fwtable
